import Mathlib

/-!
Verification of the lowering pass of the `smol` compiler front end
(`src/front/lower.rs`): the AST is flattened into a translation vector of
labels, instructions and terminators, which `construct_cfg` then groups into
a mapping from block label to basic block.

Identifiers (`Id` in the source, interned strings) are modelled as `String`.
The `i64` fresh-name counters are modelled as `Nat` (they start at 0 and are
only ever incremented by one).  `BTreeSet`/`BTreeMap` are modelled as
duplicate-free lists: `Lower.add_decl` inserts only when absent, and
`mapInsert` replaces the value when the key is present (as `BTreeMap::insert`
does), so the number of entries is the number of distinct keys.
-/

namespace Smol

/-- Binary operators of the AST (`BOp` in `src/front`). -/
inductive BOp
  | add
  | sub
  | mul
  | div
  | lt
deriving DecidableEq, Repr

/-- Expressions of the AST (`ast::Expr`). -/
inductive Expr
  | var (x : String)
  | const (n : Int)
  | binOp (op : BOp) (lhs rhs : Expr)
  | negate (e : Expr)
deriving DecidableEq, Repr

/-- Statements of the AST (`ast::Stmt`); `ifS` is `Stmt::If`. -/
inductive Stmt
  | assign (dst : String) (e : Expr)
  | print (e : Expr)
  | read (x : String)
  | ifS (guard : Expr) (tt ff : List Stmt)

/-- The AST program (`ast::Program`). -/
structure Program where
  stmts : List Stmt

/-- Three-address instructions (`tir::Instruction`). -/
inductive Instruction
  | copy (dst src : String)
  | print (x : String)
  | read (x : String)
  | const (dst : String) (src : Int)
  | arith (op : BOp) (dst lhs rhs : String)
deriving DecidableEq, Repr

/-- Block terminators (`tir::Terminator`). -/
inductive Terminator
  | jump (target : String)
  | branch (guard tt ff : String)
  | exit
deriving DecidableEq, Repr

/-- A basic block (`tir::Block`): instructions followed by one terminator. -/
structure Block where
  insn : List Instruction
  term : Terminator
deriving DecidableEq, Repr

/-- Entries of the translation vector (`TvEntry` in `lower.rs`). -/
inductive TvEntry
  | label (id : String)
  | inner (i : Instruction)
  | term (t : Terminator)
deriving DecidableEq, Repr

/-- The lowered program (`tir::Program`): declared variables plus the
label-to-block mapping, the latter modelled as an association list whose keys
are pairwise distinct. -/
structure TirProgram where
  decl : List String
  block : List (String × Block)
deriving DecidableEq, Repr

/-- Least-significant-first decimal digits of `n`, computed with explicit
fuel so that the definition is structurally recursive (and hence evaluates
inside the kernel); with `n` itself as fuel it agrees with `Nat.digits 10`. -/
def digitsRev (fuel n : Nat) : List Nat :=
  match fuel with
  | 0 => []
  | f + 1 => if n = 0 then [] else n % 10 :: digitsRev f (n / 10)

/-- Decimal rendering of a counter value, the `{}` of
`format!("{prefix}_{}", ...)` and `format!("lbl{}", ...)`. -/
def natToStr (n : Nat) : String :=
  if n = 0 then "0" else ⟨((digitsRev n n).map Nat.digitChar).reverse⟩

/-- The name produced by `mk_var`: `format!("{prefix}_{ctr}")`. -/
def mkTemp (pre : String) (k : Nat) : String :=
  pre ++ "_" ++ natToStr k

/-- The name produced by `mk_label`: `format!("lbl{ctr}")`. -/
def mkLbl (k : Nat) : String :=
  "lbl" ++ natToStr k

/-- The mutable lowering context (`struct Lower`). -/
structure Lower where
  decl : List String
  tv : List TvEntry
  fresh_ctr : Nat
  bb_ctr : Nat

/-- `Lower::new()`. -/
def Lower.new : Lower :=
  { decl := [], tv := [], fresh_ctr := 0, bb_ctr := 0 }

/-- `self.tv.push(e)`. -/
def Lower.push (s : Lower) (e : TvEntry) : Lower :=
  { s with tv := s.tv ++ [e] }

/-- `Lower::add_decl`: `self.decl.insert(var)` on the `BTreeSet`. -/
def Lower.add_decl (s : Lower) (x : String) : Lower :=
  if x ∈ s.decl then s else { s with decl := s.decl ++ [x] }

/-- `Lower::mk_var`: bump `fresh_ctr`, format the name, declare it. -/
def Lower.mk_var (s : Lower) (pre : String) : Lower × String :=
  let x := mkTemp pre (s.fresh_ctr + 1)
  (({ s with fresh_ctr := s.fresh_ctr + 1 }).add_decl x, x)

/-- `Lower::mk_label`: bump `bb_ctr` and format the label. -/
def Lower.mk_label (s : Lower) : Lower × String :=
  ({ s with bb_ctr := s.bb_ctr + 1 }, mkLbl (s.bb_ctr + 1))

/-- Termination measure for `Lower.lower_expr`: `negate` re-enters the
function on `binOp .sub (.const 0) e`, which is not a subterm, but has
smaller weight. -/
def Expr.weight : Expr → Nat
  | .var _ => 1
  | .const _ => 1
  | .binOp _ lhs rhs => 1 + lhs.weight + rhs.weight
  | .negate e => 3 + e.weight

/-- `Lower::lower_expr`. -/
def Lower.lower_expr (s : Lower) (e : Expr) : Lower × String :=
  match e with
  | .var x => (s.add_decl x, x)
  | .const n =>
      let c := s.mk_var "_const"
      (c.1.push (.inner (.const c.2 n)), c.2)
  | .binOp op lhs rhs =>
      let a := s.lower_expr lhs
      let b := a.1.lower_expr rhs
      let c := b.1.mk_var "_t"
      (c.1.push (.inner (.arith op c.2 a.2 b.2)), c.2)
  | .negate e =>
      s.lower_expr (.binOp .sub (.const 0) e)
termination_by e.weight
decreasing_by
  all_goals simp [Expr.weight]
  all_goals omega

mutual

/-- `Lower::lower_stmt`. -/
def Lower.lower_stmt (s : Lower) (st : Stmt) : Lower :=
  match st with
  | .assign dst e =>
      let s0 := s.add_decl dst
      let a := s0.lower_expr e
      a.1.push (.inner (.copy dst a.2))
  | .print e =>
      let a := s.lower_expr e
      a.1.push (.inner (.print a.2))
  | .read x =>
      (s.add_decl x).push (.inner (.read x))
  | .ifS guard tt ff =>
      let l1 := s.mk_label
      let l2 := l1.1.mk_label
      let l3 := l2.1.mk_label
      let g := l3.1.lower_expr guard
      let s1 := (g.1.push (.term (.branch g.2 l1.2 l2.2))).push (.label l1.2)
      let s2 := Lower.lower_stmts s1 tt
      let s3 := (s2.push (.term (.jump l3.2))).push (.label l2.2)
      let s4 := Lower.lower_stmts s3 ff
      (s4.push (.term (.jump l3.2))).push (.label l3.2)

/-- The `for stmt in ... { self.lower_stmt(stmt) }` loops of `lower.rs`. -/
def Lower.lower_stmts (s : Lower) (l : List Stmt) : Lower :=
  match l with
  | [] => s
  | st :: rest => Lower.lower_stmts (s.lower_stmt st) rest

end

/-- `BTreeMap::insert`: replace the value if the key is present, otherwise
add a new entry. -/
def mapInsert (k : String) (v : Block) : List (String × Block) → List (String × Block)
  | [] => [(k, v)]
  | (k', v') :: rest => if k = k' then (k, v) :: rest else (k', v') :: mapInsert k v rest

/-- The scanning loop of `construct_cfg`: current label, accumulated
instruction buffer, and the mapping built so far. -/
def constructCfgLoop : List TvEntry → String → List Instruction → List (String × Block) → List (String × Block)
  | [], _, _, m => m
  | .label id :: rest, _, buf, m => constructCfgLoop rest id buf m
  | .inner i :: rest, curr, buf, m => constructCfgLoop rest curr (buf ++ [i]) m
  | .term t :: rest, curr, buf, m => constructCfgLoop rest curr [] (mapInsert curr ⟨buf, t⟩ m)

/-- `construct_cfg`: if the vector is empty or does not start with a label,
return the empty mapping; otherwise scan. -/
def construct_cfg (tv : List TvEntry) : List (String × Block) :=
  match tv with
  | .label id :: rest => constructCfgLoop rest id [] []
  | _ => []

/-- The state at the end of `Lower::lower_program`, just before
`construct_cfg` is applied: push `Label("entry")`, lower every statement,
push `Term(Exit)`. -/
def Lower.finalState (s : Lower) (p : Program) : Lower :=
  ((s.push (.label "entry")).lower_stmts p.stmts).push (.term .exit)

/-- `Lower::lower_program`. -/
def Lower.lower_program (s : Lower) (p : Program) : TirProgram :=
  { decl := (s.finalState p).decl, block := construct_cfg (s.finalState p).tv }

/-- `pub fn lower`. -/
def lower (p : Program) : TirProgram :=
  Lower.new.lower_program p

/-! ### Helper predicates over translation-vector segments -/

/-- A segment consisting of `Inner` entries only (what expression lowering
emits). -/
def AllInner (d : List TvEntry) : Prop :=
  ∀ x ∈ d, ∃ i, x = TvEntry.inner i

/-- The destinations of the `Const`/`Arith` instructions of a segment: the
fresh temporaries introduced in it. -/
def tempDsts (d : List TvEntry) : List String :=
  d.filterMap fun x =>
    match x with
    | .inner (.const dst _) => some dst
    | .inner (.arith _ dst _ _) => some dst
    | _ => none

/-- The labels opened in a segment, in order. -/
def labelsOf (d : List TvEntry) : List String :=
  d.filterMap fun x =>
    match x with
    | .label l => some l
    | _ => none

/-- The terminators of a segment, in order; each one triggers exactly one
insertion during CFG construction. -/
def termsOf (d : List TvEntry) : List Terminator :=
  d.filterMap fun x =>
    match x with
    | .term t => some t
    | _ => none

/-- The instructions of an all-`Inner` segment, in order. -/
def innersOf (d : List TvEntry) : List Instruction :=
  d.filterMap fun x =>
    match x with
    | .inner i => some i
    | _ => none

/-- Every name of the list is a generated temporary whose counter value lies
in `(lo, hi]`. -/
def TempsIn (lo hi : Nat) (names : List String) : Prop :=
  ∀ x ∈ names, ∃ p k, (p = "_const" ∨ p = "_t") ∧ x = mkTemp p k ∧ lo < k ∧ k ≤ hi

/-- Every name of the list is a generated label whose counter value lies in
`(lo, hi]`. -/
def LabelsIn (lo hi : Nat) (names : List String) : Prop :=
  ∀ x ∈ names, ∃ k, x = mkLbl k ∧ lo < k ∧ k ≤ hi

/-! ### Small state lemmas -/

@[simp] theorem push_tv (s : Lower) (e : TvEntry) : (s.push e).tv = s.tv ++ [e] := rfl

@[simp] theorem push_decl (s : Lower) (e : TvEntry) : (s.push e).decl = s.decl := rfl

@[simp] theorem push_fresh (s : Lower) (e : TvEntry) : (s.push e).fresh_ctr = s.fresh_ctr := rfl

@[simp] theorem push_bb (s : Lower) (e : TvEntry) : (s.push e).bb_ctr = s.bb_ctr := rfl

@[simp] theorem add_decl_tv (s : Lower) (x : String) : (s.add_decl x).tv = s.tv := by
  rw [Lower.add_decl]; split <;> rfl

@[simp] theorem add_decl_fresh (s : Lower) (x : String) :
    (s.add_decl x).fresh_ctr = s.fresh_ctr := by
  rw [Lower.add_decl]; split <;> rfl

@[simp] theorem add_decl_bb (s : Lower) (x : String) : (s.add_decl x).bb_ctr = s.bb_ctr := by
  rw [Lower.add_decl]; split <;> rfl

@[simp] theorem mk_var_fst_tv (s : Lower) (pre : String) : (s.mk_var pre).1.tv = s.tv := by
  rw [Lower.mk_var]; simp

@[simp] theorem mk_var_fst_fresh (s : Lower) (pre : String) :
    (s.mk_var pre).1.fresh_ctr = s.fresh_ctr + 1 := by
  rw [Lower.mk_var]; simp [Lower.add_decl]; split <;> rfl

@[simp] theorem mk_var_fst_bb (s : Lower) (pre : String) :
    (s.mk_var pre).1.bb_ctr = s.bb_ctr := by
  rw [Lower.mk_var]; simp

@[simp] theorem mk_var_snd (s : Lower) (pre : String) :
    (s.mk_var pre).2 = mkTemp pre (s.fresh_ctr + 1) := rfl

@[simp] theorem mk_label_fst_tv (s : Lower) : s.mk_label.1.tv = s.tv := rfl

@[simp] theorem mk_label_fst_decl (s : Lower) : s.mk_label.1.decl = s.decl := rfl

@[simp] theorem mk_label_fst_fresh (s : Lower) : s.mk_label.1.fresh_ctr = s.fresh_ctr := rfl

@[simp] theorem mk_label_fst_bb (s : Lower) : s.mk_label.1.bb_ctr = s.bb_ctr + 1 := rfl

@[simp] theorem mk_label_snd (s : Lower) : s.mk_label.2 = mkLbl (s.bb_ctr + 1) := rfl

/-! ### Unfolding equations of `lower_expr` -/

theorem lower_expr_var (s : Lower) (x : String) :
    s.lower_expr (.var x) = (s.add_decl x, x) := by
  rw [Lower.lower_expr]

theorem lower_expr_const (s : Lower) (n : Int) :
    s.lower_expr (.const n) =
      ((s.mk_var "_const").1.push (.inner (.const (s.mk_var "_const").2 n)),
        (s.mk_var "_const").2) := by
  rw [Lower.lower_expr]

theorem lower_expr_binOp (s : Lower) (op : BOp) (lhs rhs : Expr) :
    s.lower_expr (.binOp op lhs rhs) =
      (let a := s.lower_expr lhs
       let b := a.1.lower_expr rhs
       let c := b.1.mk_var "_t"
       (c.1.push (.inner (.arith op c.2 a.2 b.2)), c.2)) := by
  rw [Lower.lower_expr]

theorem lower_expr_negate (s : Lower) (e : Expr) :
    s.lower_expr (.negate e) = s.lower_expr (.binOp .sub (.const 0) e) := by
  conv_lhs => rw [Lower.lower_expr]

/-! ### Injectivity of the generated names -/

theorem digitsRev_eq_digits : ∀ fuel n, n ≤ fuel → digitsRev fuel n = Nat.digits 10 n := by
  intro fuel
  induction fuel with
  | zero => intro n hn; interval_cases n; simp [digitsRev]
  | succ f ih =>
      intro n hn
      by_cases h0 : n = 0
      · simp [digitsRev, h0]
      · have hdiv : n / 10 ≤ f := by
          have := Nat.div_lt_self (Nat.pos_of_ne_zero h0) (by norm_num : 1 < 10)
          omega
        rw [digitsRev, if_neg h0,
          Nat.digits_def' (by norm_num : 1 < 10) (Nat.pos_of_ne_zero h0), ih (n / 10) hdiv]

theorem digitChar_inj_lt :
    ∀ a, a < 10 → ∀ b, b < 10 → Nat.digitChar a = Nat.digitChar b → a = b := by
  decide

theorem map_digitChar_inj :
    ∀ l1 l2 : List Nat, (∀ x ∈ l1, x < 10) → (∀ x ∈ l2, x < 10) →
      l1.map Nat.digitChar = l2.map Nat.digitChar → l1 = l2 := by
  intro l1
  induction l1 with
  | nil => intro l2 _ _ h; cases l2 <;> simp_all
  | cons a t ih =>
      intro l2 h1 h2 h
      cases l2 with
      | nil => simp_all
      | cons b t2 =>
          simp only [List.map_cons, List.cons.injEq] at h
          have ha : a = b :=
            digitChar_inj_lt a (h1 a (by simp)) b (h2 b (by simp)) h.1
          have ht : t = t2 :=
            ih t2 (fun x hx => h1 x (by simp [hx])) (fun x hx => h2 x (by simp [hx])) h.2
          rw [ha, ht]

theorem natToStr_inj : Function.Injective natToStr := by
  intro a b h
  unfold natToStr at h
  by_cases ha : a = 0 <;> by_cases hb : b = 0
  · omega
  · rw [if_pos ha, if_neg hb] at h
    have hd : ("0" : String).data = (((digitsRev b b).map Nat.digitChar).reverse : List Char) :=
      congrArg String.data h
    rw [digitsRev_eq_digits b b le_rfl] at hd
    have : Nat.digits 10 b = [0] := by
      have hlen : ((Nat.digits 10 b).map Nat.digitChar).reverse.length = 1 := by
        rw [← hd]; rfl
      simp only [List.length_reverse, List.length_map] at hlen
      obtain ⟨d, hdig⟩ := List.length_eq_one.mp hlen
      rw [hdig] at hd
      have hd10 : d < 10 := Nat.digits_lt_base (by norm_num) (by rw [hdig]; simp)
      have : Nat.digitChar d = '0' := by
        simpa using hd.symm
      have : d = 0 := digitChar_inj_lt d hd10 0 (by norm_num) (by simpa using this)
      rw [hdig, this]
    have : b = 0 := by
      have := Nat.ofDigits_digits 10 b
      rw [‹Nat.digits 10 b = [0]›] at this
      simpa [Nat.ofDigits_singleton] using this.symm
    omega
  · rw [if_neg ha, if_pos hb] at h
    have hd : (((digitsRev a a).map Nat.digitChar).reverse : List Char) = ("0" : String).data :=
      congrArg String.data h
    rw [digitsRev_eq_digits a a le_rfl] at hd
    have : Nat.digits 10 a = [0] := by
      have hlen : ((Nat.digits 10 a).map Nat.digitChar).reverse.length = 1 := by
        rw [hd]; rfl
      simp only [List.length_reverse, List.length_map] at hlen
      obtain ⟨d, hdig⟩ := List.length_eq_one.mp hlen
      rw [hdig] at hd
      have hd10 : d < 10 := Nat.digits_lt_base (by norm_num) (by rw [hdig]; simp)
      have : Nat.digitChar d = '0' := by
        simpa using hd
      have : d = 0 := digitChar_inj_lt d hd10 0 (by norm_num) (by simpa using this)
      rw [hdig, this]
    have : a = 0 := by
      have := Nat.ofDigits_digits 10 a
      rw [‹Nat.digits 10 a = [0]›] at this
      simpa [Nat.ofDigits_singleton] using this.symm
    omega
  · rw [if_neg ha, if_neg hb] at h
    have hd := congrArg String.data h
    simp only at hd
    rw [digitsRev_eq_digits a a le_rfl, digitsRev_eq_digits b b le_rfl] at hd
    have hrev := congrArg List.reverse hd
    simp only [List.reverse_reverse] at hrev
    have := map_digitChar_inj (Nat.digits 10 a) (Nat.digits 10 b)
      (fun x hx => Nat.digits_lt_base (by norm_num) hx)
      (fun x hx => Nat.digits_lt_base (by norm_num) hx) hrev
    calc a = Nat.ofDigits 10 (Nat.digits 10 a) := (Nat.ofDigits_digits 10 a).symm
      _ = Nat.ofDigits 10 (Nat.digits 10 b) := by rw [this]
      _ = b := Nat.ofDigits_digits 10 b

theorem string_data_append (a b : String) : (a ++ b).data = a.data ++ b.data := rfl

theorem string_append_left_cancel {p a b : String} (h : p ++ a = p ++ b) : a = b := by
  have hd := congrArg String.data h
  rw [string_data_append, string_data_append] at hd
  exact String.ext (List.append_cancel_left hd)

theorem mkLbl_inj {j k : Nat} (h : mkLbl j = mkLbl k) : j = k := by
  simp only [mkLbl] at h
  exact natToStr_inj (string_append_left_cancel h)

theorem mkLbl_ne_entry (k : Nat) : mkLbl k ≠ "entry" := by
  intro h
  have hget : (mkLbl k).data.get? 0 = ("entry" : String).data.get? 0 := by rw [h]
  have h1 : (mkLbl k).data.get? 0 = some 'l' := rfl
  have h2 : ("entry" : String).data.get? 0 = some 'e' := rfl
  rw [h1, h2] at hget
  exact absurd (Option.some.inj hget) (by decide)

theorem mkTemp_const_ne_t (j k : Nat) : mkTemp "_const" j ≠ mkTemp "_t" k := by
  intro h
  have hget : (mkTemp "_const" j).data.get? 1 = (mkTemp "_t" k).data.get? 1 := by rw [h]
  have h1 : (mkTemp "_const" j).data.get? 1 = some 'c' := rfl
  have h2 : (mkTemp "_t" k).data.get? 1 = some 't' := rfl
  rw [h1, h2] at hget
  exact absurd (Option.some.inj hget) (by decide)

theorem mkTemp_inj {p q : String} {j k : Nat}
    (hp : p = "_const" ∨ p = "_t") (hq : q = "_const" ∨ q = "_t")
    (h : mkTemp p j = mkTemp q k) : j = k := by
  rcases hp with hp | hp <;> rcases hq with hq | hq <;> subst hp <;> subst hq
  · simp only [mkTemp] at h
    exact natToStr_inj (string_append_left_cancel h)
  · exact absurd h (mkTemp_const_ne_t j k)
  · exact absurd h.symm (mkTemp_const_ne_t k j)
  · simp only [mkTemp] at h
    exact natToStr_inj (string_append_left_cancel h)

/-! ### Composition lemmas for bounded name segments -/

theorem tempsIn_widen {lo hi lo' hi' : Nat} {l : List String} (h : TempsIn lo hi l)
    (h1 : lo' ≤ lo) (h2 : hi ≤ hi') : TempsIn lo' hi' l := by
  intro x hx
  obtain ⟨p, k, hp, hk, hlo, hhi⟩ := h x hx
  exact ⟨p, k, hp, hk, by omega, by omega⟩

theorem labelsIn_widen {lo hi lo' hi' : Nat} {l : List String} (h : LabelsIn lo hi l)
    (h1 : lo' ≤ lo) (h2 : hi ≤ hi') : LabelsIn lo' hi' l := by
  intro x hx
  obtain ⟨k, hk, hlo, hhi⟩ := h x hx
  exact ⟨k, hk, by omega, by omega⟩

theorem tempsIn_disjoint {a b c d : Nat} {l1 l2 : List String}
    (h1 : TempsIn a b l1) (h2 : TempsIn c d l2) (hbc : b ≤ c) :
    ∀ x ∈ l1, x ∉ l2 := by
  intro x hx1 hx2
  obtain ⟨p, k, hp, hk, hlo, hhi⟩ := h1 x hx1
  obtain ⟨q, j, hq, hj, hlo', hhi'⟩ := h2 x hx2
  have : k = j := mkTemp_inj hp hq (by rw [← hk, ← hj])
  omega

theorem labelsIn_disjoint {a b c d : Nat} {l1 l2 : List String}
    (h1 : LabelsIn a b l1) (h2 : LabelsIn c d l2) (hbc : b ≤ c) :
    ∀ x ∈ l1, x ∉ l2 := by
  intro x hx1 hx2
  obtain ⟨k, hk, hlo, hhi⟩ := h1 x hx1
  obtain ⟨j, hj, hlo', hhi'⟩ := h2 x hx2
  have : k = j := mkLbl_inj (by rw [← hk, ← hj])
  omega

theorem tempsIn_append_nodup {a b c : Nat} {l1 l2 : List String}
    (h1 : TempsIn a b l1) (h2 : TempsIn b c l2)
    (n1 : l1.Nodup) (n2 : l2.Nodup) : (l1 ++ l2).Nodup := by
  rw [List.nodup_append]
  exact ⟨n1, n2, fun x hx => tempsIn_disjoint h1 h2 le_rfl x hx⟩

theorem labelsIn_append_nodup {a b c : Nat} {l1 l2 : List String}
    (h1 : LabelsIn a b l1) (h2 : LabelsIn b c l2)
    (n1 : l1.Nodup) (n2 : l2.Nodup) : (l1 ++ l2).Nodup := by
  rw [List.nodup_append]
  exact ⟨n1, n2, fun x hx => labelsIn_disjoint h1 h2 le_rfl x hx⟩

theorem tempsIn_append {a b c : Nat} {l1 l2 : List String}
    (h1 : TempsIn a b l1) (h2 : TempsIn b c l2)
    (hab : a ≤ b) (hbc : b ≤ c) : TempsIn a c (l1 ++ l2) := by
  intro x hx
  rcases List.mem_append.mp hx with h | h
  · exact tempsIn_widen h1 le_rfl hbc x h
  · exact tempsIn_widen h2 hab le_rfl x h

theorem labelsIn_append {a b c : Nat} {l1 l2 : List String}
    (h1 : LabelsIn a b l1) (h2 : LabelsIn b c l2)
    (hab : a ≤ b) (hbc : b ≤ c) : LabelsIn a c (l1 ++ l2) := by
  intro x hx
  rcases List.mem_append.mp hx with h | h
  · exact labelsIn_widen h1 le_rfl hbc x h
  · exact labelsIn_widen h2 hab le_rfl x h

/-! ### Structure of the segment emitted by `lower_expr` -/

theorem allInner_append {d1 d2 : List TvEntry} (h1 : AllInner d1) (h2 : AllInner d2) :
    AllInner (d1 ++ d2) := by
  intro x hx
  rcases List.mem_append.mp hx with h | h
  · exact h1 x h
  · exact h2 x h

@[simp] theorem tempDsts_append (d1 d2 : List TvEntry) :
    tempDsts (d1 ++ d2) = tempDsts d1 ++ tempDsts d2 := by
  simp [tempDsts]

@[simp] theorem labelsOf_append (d1 d2 : List TvEntry) :
    labelsOf (d1 ++ d2) = labelsOf d1 ++ labelsOf d2 := by
  simp [labelsOf]

@[simp] theorem innersOf_append (d1 d2 : List TvEntry) :
    innersOf (d1 ++ d2) = innersOf d1 ++ innersOf d2 := by
  simp [innersOf]

theorem Expr.weight_pos (e : Expr) : 0 < e.weight := by
  cases e <;> simp [Expr.weight]

/-- `lower_expr` on a binary operation, with the intermediate states written
out as projections. -/
theorem lower_expr_binOp' (s : Lower) (op : BOp) (lhs rhs : Expr) :
    s.lower_expr (.binOp op lhs rhs) =
      ((((s.lower_expr lhs).1.lower_expr rhs).1.mk_var "_t").1.push
          (.inner (.arith op (((s.lower_expr lhs).1.lower_expr rhs).1.mk_var "_t").2
            (s.lower_expr lhs).2 ((s.lower_expr lhs).1.lower_expr rhs).2)),
        (((s.lower_expr lhs).1.lower_expr rhs).1.mk_var "_t").2) := by
  rw [Lower.lower_expr]

/-- Everything expression lowering does to the translation vector and the
counters: it appends a segment of plain instructions whose generated
temporaries are pairwise distinct and lie strictly between the old and the
new value of `fresh_ctr`; the label counter is untouched. -/
theorem lower_expr_out (e : Expr) (s : Lower) :
    ∃ d, ((s.lower_expr e).1).tv = s.tv ++ d ∧
      AllInner d ∧
      s.fresh_ctr ≤ ((s.lower_expr e).1).fresh_ctr ∧
      ((s.lower_expr e).1).bb_ctr = s.bb_ctr ∧
      TempsIn s.fresh_ctr ((s.lower_expr e).1).fresh_ctr (tempDsts d) ∧
      (tempDsts d).Nodup := by
  suffices H : ∀ n e, Expr.weight e ≤ n → ∀ s : Lower,
      ∃ d, ((s.lower_expr e).1).tv = s.tv ++ d ∧
        AllInner d ∧
        s.fresh_ctr ≤ ((s.lower_expr e).1).fresh_ctr ∧
        ((s.lower_expr e).1).bb_ctr = s.bb_ctr ∧
        TempsIn s.fresh_ctr ((s.lower_expr e).1).fresh_ctr (tempDsts d) ∧
        (tempDsts d).Nodup by
    exact H e.weight e le_rfl s
  intro n
  induction n with
  | zero =>
      intro e he
      exact absurd he (by have := e.weight_pos; omega)
  | succ n ih =>
      intro e he s
      match e with
      | .var x =>
          refine ⟨[], ?_, ?_, ?_, ?_, ?_, ?_⟩ <;>
            simp [lower_expr_var, AllInner, TempsIn, tempDsts]
      | .const c =>
          refine ⟨[.inner (.const (mkTemp "_const" (s.fresh_ctr + 1)) c)], ?_, ?_, ?_, ?_, ?_, ?_⟩ <;>
            simp [lower_expr_const, AllInner, TempsIn, tempDsts]
          exact Or.inl ⟨s.fresh_ctr + 1, rfl, by omega, by omega⟩
      | .binOp op lhs rhs =>
          have hl : lhs.weight ≤ n := by simp [Expr.weight] at he; omega
          have hr : rhs.weight ≤ n := by simp [Expr.weight] at he; omega
          obtain ⟨d1, h1tv, h1inner, h1f, h1bb, h1in, h1nd⟩ := ih lhs hl s
          obtain ⟨d2, h2tv, h2inner, h2f, h2bb, h2in, h2nd⟩ := ih rhs hr (s.lower_expr lhs).1
          rw [lower_expr_binOp']
          simp only [push_tv, push_fresh, push_bb, mk_var_fst_tv, mk_var_fst_fresh,
            mk_var_fst_bb, mk_var_snd]
          refine ⟨d1 ++ d2 ++
            [.inner (.arith op (mkTemp "_t" (((s.lower_expr lhs).1.lower_expr rhs).1.fresh_ctr + 1))
              (s.lower_expr lhs).2 ((s.lower_expr lhs).1.lower_expr rhs).2)],
            ?_, ?_, ?_, ?_, ?_, ?_⟩
          · rw [h2tv, h1tv]
            simp [List.append_assoc]
          · refine allInner_append (allInner_append h1inner h2inner) ?_
            intro x hx
            simp only [List.mem_singleton] at hx
            exact ⟨_, hx⟩
          · omega
          · rw [h2bb, h1bb]
          · have hmid : TempsIn s.fresh_ctr ((s.lower_expr lhs).1.lower_expr rhs).1.fresh_ctr
                (tempDsts d1 ++ tempDsts d2) := tempsIn_append h1in h2in h1f h2f
            have hlast : TempsIn ((s.lower_expr lhs).1.lower_expr rhs).1.fresh_ctr
                (((s.lower_expr lhs).1.lower_expr rhs).1.fresh_ctr + 1)
                [mkTemp "_t" (((s.lower_expr lhs).1.lower_expr rhs).1.fresh_ctr + 1)] := by
              intro x hx
              simp only [List.mem_singleton] at hx
              exact ⟨"_t", _, Or.inr rfl, hx, by omega, le_rfl⟩
            simp only [tempDsts_append]
            have : tempDsts [TvEntry.inner (.arith op
                (mkTemp "_t" (((s.lower_expr lhs).1.lower_expr rhs).1.fresh_ctr + 1))
                (s.lower_expr lhs).2 ((s.lower_expr lhs).1.lower_expr rhs).2)] =
                [mkTemp "_t" (((s.lower_expr lhs).1.lower_expr rhs).1.fresh_ctr + 1)] := rfl
            rw [this]
            exact tempsIn_append hmid hlast (le_trans h1f h2f) (by omega)
          · have hmid : TempsIn s.fresh_ctr ((s.lower_expr lhs).1.lower_expr rhs).1.fresh_ctr
                (tempDsts d1 ++ tempDsts d2) := tempsIn_append h1in h2in h1f h2f
            have hnd12 : (tempDsts d1 ++ tempDsts d2).Nodup :=
              tempsIn_append_nodup h1in h2in h1nd h2nd
            have hlast : TempsIn ((s.lower_expr lhs).1.lower_expr rhs).1.fresh_ctr
                (((s.lower_expr lhs).1.lower_expr rhs).1.fresh_ctr + 1)
                [mkTemp "_t" (((s.lower_expr lhs).1.lower_expr rhs).1.fresh_ctr + 1)] := by
              intro x hx
              simp only [List.mem_singleton] at hx
              exact ⟨"_t", _, Or.inr rfl, hx, by omega, le_rfl⟩
            simp only [tempDsts_append]
            have : tempDsts [TvEntry.inner (.arith op
                (mkTemp "_t" (((s.lower_expr lhs).1.lower_expr rhs).1.fresh_ctr + 1))
                (s.lower_expr lhs).2 ((s.lower_expr lhs).1.lower_expr rhs).2)] =
                [mkTemp "_t" (((s.lower_expr lhs).1.lower_expr rhs).1.fresh_ctr + 1)] := rfl
            rw [this]
            exact tempsIn_append_nodup hmid hlast hnd12 (List.nodup_singleton _)
      | .negate e' =>
          have hw : (Expr.binOp .sub (.const 0) e').weight ≤ n := by
            simp [Expr.weight] at he ⊢; omega
          rw [lower_expr_negate]
          exact ih (.binOp .sub (.const 0) e') hw s

/-! ### Well-formed translation-vector segments

In a segment emitted by statement lowering, every `Term` entry is
immediately followed by a `Label` entry (`If` closes a block only to open
the next one right away), so labels and terminators alternate. -/

inductive Seg : List TvEntry → Prop
  | nil : Seg []
  | innerCons (i : Instruction) {r : List TvEntry} : Seg r → Seg (.inner i :: r)
  | termLabel (t : Terminator) (l : String) {r : List TvEntry} :
      Seg r → Seg (.term t :: .label l :: r)

theorem Seg.append {d1 d2 : List TvEntry} (h1 : Seg d1) (h2 : Seg d2) : Seg (d1 ++ d2) := by
  induction h1 with
  | nil => exact h2
  | innerCons i _ ih => exact Seg.innerCons i ih
  | termLabel t l _ ih => exact Seg.termLabel t l ih

theorem AllInner.seg {d : List TvEntry} (h : AllInner d) : Seg d := by
  induction d with
  | nil => exact Seg.nil
  | cons x r ih =>
      obtain ⟨i, hi⟩ := h x (by simp)
      subst hi
      exact Seg.innerCons i (ih fun y hy => h y (by simp [hy]))

theorem AllInner.labels_nil {d : List TvEntry} (h : AllInner d) : labelsOf d = [] := by
  induction d with
  | nil => rfl
  | cons x r ih =>
      obtain ⟨i, hi⟩ := h x (by simp)
      subst hi
      simpa [labelsOf] using ih fun y hy => h y (by simp [hy])

theorem labelsIn_notMem {a b k : Nat} {l : List String}
    (h : LabelsIn a b l) (hk : k ≤ a ∨ b < k) : mkLbl k ∉ l := by
  intro hm
  obtain ⟨j, hj, h1, h2⟩ := h _ hm
  have := mkLbl_inj hj
  omega

/-! ### Counting `If` nodes -/

mutual

/-- Number of `If` nodes in one statement, nested ones included. -/
def countIfStmt : Stmt → Nat
  | .assign _ _ => 0
  | .print _ => 0
  | .read _ => 0
  | .ifS _ tt ff => 1 + countIfs tt + countIfs ff

/-- Number of `If` nodes in a statement list. -/
def countIfs : List Stmt → Nat
  | [] => 0
  | st :: rest => countIfStmt st + countIfs rest

end

/-! ### Unfolding equations of `lower_stmt` and `lower_stmts` -/

theorem lower_stmt_assign (s : Lower) (dst : String) (e : Expr) :
    s.lower_stmt (.assign dst e) =
      ((s.add_decl dst).lower_expr e).1.push
        (.inner (.copy dst ((s.add_decl dst).lower_expr e).2)) := by
  rw [Lower.lower_stmt]

theorem lower_stmt_print (s : Lower) (e : Expr) :
    s.lower_stmt (.print e) =
      (s.lower_expr e).1.push (.inner (.print (s.lower_expr e).2)) := by
  rw [Lower.lower_stmt]

theorem lower_stmt_read (s : Lower) (x : String) :
    s.lower_stmt (.read x) = (s.add_decl x).push (.inner (.read x)) := by
  rw [Lower.lower_stmt]

theorem lower_stmt_if (s : Lower) (g : Expr) (tt ff : List Stmt) :
    s.lower_stmt (.ifS g tt ff) =
      ((Lower.lower_stmts
          (((Lower.lower_stmts
              (((({ s with bb_ctr := s.bb_ctr + 1 + 1 + 1 } : Lower).lower_expr g).1.push
                  (.term (.branch (({ s with bb_ctr := s.bb_ctr + 1 + 1 + 1 } : Lower).lower_expr g).2
                    (mkLbl (s.bb_ctr + 1)) (mkLbl (s.bb_ctr + 1 + 1))))).push
                (.label (mkLbl (s.bb_ctr + 1)))) tt).push
            (.term (.jump (mkLbl (s.bb_ctr + 1 + 1 + 1))))).push
            (.label (mkLbl (s.bb_ctr + 1 + 1)))) ff).push
        (.term (.jump (mkLbl (s.bb_ctr + 1 + 1 + 1))))).push
        (.label (mkLbl (s.bb_ctr + 1 + 1 + 1))) := by
  rw [Lower.lower_stmt]
  rfl

theorem lower_stmts_nil (s : Lower) : s.lower_stmts [] = s := by
  rw [Lower.lower_stmts]

theorem lower_stmts_cons (s : Lower) (st : Stmt) (rest : List Stmt) :
    s.lower_stmts (st :: rest) = (s.lower_stmt st).lower_stmts rest := by
  rw [Lower.lower_stmts]

/-! ### The segment relation between two lowering states -/

@[simp] theorem tempDsts_nil : tempDsts [] = [] := rfl

@[simp] theorem labelsOf_nil : labelsOf [] = [] := rfl

@[simp] theorem tempDsts_cons_label (l : String) (r : List TvEntry) :
    tempDsts (.label l :: r) = tempDsts r := rfl

@[simp] theorem tempDsts_cons_term (t : Terminator) (r : List TvEntry) :
    tempDsts (.term t :: r) = tempDsts r := rfl

@[simp] theorem tempDsts_cons_copy (a b : String) (r : List TvEntry) :
    tempDsts (.inner (.copy a b) :: r) = tempDsts r := rfl

@[simp] theorem tempDsts_cons_print (a : String) (r : List TvEntry) :
    tempDsts (.inner (.print a) :: r) = tempDsts r := rfl

@[simp] theorem tempDsts_cons_read (a : String) (r : List TvEntry) :
    tempDsts (.inner (.read a) :: r) = tempDsts r := rfl

@[simp] theorem tempDsts_cons_const (a : String) (n : Int) (r : List TvEntry) :
    tempDsts (.inner (.const a n) :: r) = a :: tempDsts r := rfl

@[simp] theorem tempDsts_cons_arith (op : BOp) (a b c : String) (r : List TvEntry) :
    tempDsts (.inner (.arith op a b c) :: r) = a :: tempDsts r := rfl

@[simp] theorem labelsOf_cons_label (l : String) (r : List TvEntry) :
    labelsOf (.label l :: r) = l :: labelsOf r := rfl

@[simp] theorem labelsOf_cons_term (t : Terminator) (r : List TvEntry) :
    labelsOf (.term t :: r) = labelsOf r := rfl

@[simp] theorem labelsOf_cons_inner (i : Instruction) (r : List TvEntry) :
    labelsOf (.inner i :: r) = labelsOf r := rfl

@[simp] theorem termsOf_nil : termsOf [] = [] := rfl

@[simp] theorem termsOf_append (d1 d2 : List TvEntry) :
    termsOf (d1 ++ d2) = termsOf d1 ++ termsOf d2 := by
  simp [termsOf]

@[simp] theorem termsOf_cons_label (l : String) (r : List TvEntry) :
    termsOf (.label l :: r) = termsOf r := rfl

@[simp] theorem termsOf_cons_inner (i : Instruction) (r : List TvEntry) :
    termsOf (.inner i :: r) = termsOf r := rfl

@[simp] theorem termsOf_cons_term (t : Terminator) (r : List TvEntry) :
    termsOf (.term t :: r) = t :: termsOf r := rfl

@[simp] theorem innersOf_nil : innersOf [] = [] := rfl

@[simp] theorem innersOf_cons_inner (i : Instruction) (r : List TvEntry) :
    innersOf (.inner i :: r) = i :: innersOf r := rfl

@[simp] theorem innersOf_cons_label (l : String) (r : List TvEntry) :
    innersOf (.label l :: r) = innersOf r := rfl

@[simp] theorem innersOf_cons_term (t : Terminator) (r : List TvEntry) :
    innersOf (.term t :: r) = innersOf r := rfl

/-- Statement lowering moves the state `s` to the state `s'` by appending the
segment `d` to the translation vector: the counters only grow, the segment is
well formed (terminators immediately followed by labels), the temporaries and
labels it introduces are fresh, pairwise distinct, and bounded by the old and
new counter values, and it opens `cnt` labels. -/
def SegOut (s s' : Lower) (d : List TvEntry) (cnt : Nat) : Prop :=
  s'.tv = s.tv ++ d ∧
  s.fresh_ctr ≤ s'.fresh_ctr ∧
  s.bb_ctr ≤ s'.bb_ctr ∧
  Seg d ∧
  TempsIn s.fresh_ctr s'.fresh_ctr (tempDsts d) ∧
  (tempDsts d).Nodup ∧
  LabelsIn s.bb_ctr s'.bb_ctr (labelsOf d) ∧
  (labelsOf d).Nodup ∧
  (labelsOf d).length = cnt

theorem SegOut.trans {s s' s'' : Lower} {d1 d2 : List TvEntry} {c1 c2 : Nat}
    (h1 : SegOut s s' d1 c1) (h2 : SegOut s' s'' d2 c2) :
    SegOut s s'' (d1 ++ d2) (c1 + c2) := by
  obtain ⟨tv1, f1, b1, sg1, t1, n1, L1, N1, len1⟩ := h1
  obtain ⟨tv2, f2, b2, sg2, t2, n2, L2, N2, len2⟩ := h2
  refine ⟨?_, le_trans f1 f2, le_trans b1 b2, sg1.append sg2, ?_, ?_, ?_, ?_, ?_⟩
  · rw [tv2, tv1, List.append_assoc]
  · simp only [tempDsts_append]; exact tempsIn_append t1 t2 f1 f2
  · simp only [tempDsts_append]; exact tempsIn_append_nodup t1 t2 n1 n2
  · simp only [labelsOf_append]; exact labelsIn_append L1 L2 b1 b2
  · simp only [labelsOf_append]; exact labelsIn_append_nodup L1 L2 N1 N2
  · simp only [labelsOf_append, List.length_append, len1, len2]

/-- The expression-level lemma phrased as a `SegOut` with no labels. -/
theorem lower_expr_segOut (e : Expr) (s : Lower) :
    ∃ d, AllInner d ∧ SegOut s (s.lower_expr e).1 d 0 := by
  obtain ⟨d, htv, hin, hf, hbb, ht, hnd⟩ := lower_expr_out e s
  refine ⟨d, hin, htv, hf, le_of_eq hbb.symm, hin.seg, ht, hnd, ?_, ?_, ?_⟩
  · rw [hin.labels_nil]; intro x hx; exact absurd hx (List.not_mem_nil x)
  · rw [hin.labels_nil]; exact List.nodup_nil
  · rw [hin.labels_nil]; rfl

/-- Gluing the pieces of the `If` lowering into one `SegOut`: the guard
segment, the closing `Branch`, the two branch segments closed by `Jump`s, and
the three labels allocated up front. -/
theorem segOut_if_assembly (s sg1 s2 s4 : Lower) (gid : String)
    (dg dt df : List TvEntry) (ct cf cnt : Nat)
    (hg_tv : sg1.tv = s.tv ++ dg) (hg_inner : AllInner dg)
    (hg_f : s.fresh_ctr ≤ sg1.fresh_ctr) (hg_bb : sg1.bb_ctr = s.bb_ctr + 1 + 1 + 1)
    (hg_t : TempsIn s.fresh_ctr sg1.fresh_ctr (tempDsts dg)) (hg_nd : (tempDsts dg).Nodup)
    (ht : SegOut ((sg1.push (.term (.branch gid (mkLbl (s.bb_ctr + 1))
            (mkLbl (s.bb_ctr + 1 + 1))))).push (.label (mkLbl (s.bb_ctr + 1)))) s2 dt ct)
    (hf : SegOut ((s2.push (.term (.jump (mkLbl (s.bb_ctr + 1 + 1 + 1))))).push
            (.label (mkLbl (s.bb_ctr + 1 + 1)))) s4 df cf)
    (hcnt : cnt = ct + cf + 3) :
    SegOut s
      ((s4.push (.term (.jump (mkLbl (s.bb_ctr + 1 + 1 + 1))))).push
        (.label (mkLbl (s.bb_ctr + 1 + 1 + 1))))
      (dg ++ ([.term (.branch gid (mkLbl (s.bb_ctr + 1)) (mkLbl (s.bb_ctr + 1 + 1))),
          .label (mkLbl (s.bb_ctr + 1))] ++ (dt ++
        ([.term (.jump (mkLbl (s.bb_ctr + 1 + 1 + 1))), .label (mkLbl (s.bb_ctr + 1 + 1))] ++
          (df ++ [.term (.jump (mkLbl (s.bb_ctr + 1 + 1 + 1))),
            .label (mkLbl (s.bb_ctr + 1 + 1 + 1))])))))
      cnt := by
  obtain ⟨t_tv, t_f, t_bb, t_seg, t_tin, t_tnd, t_L, t_LN, t_len⟩ := ht
  obtain ⟨f_tv, f_f, f_bb, f_seg, f_tin, f_tnd, f_L, f_LN, f_len⟩ := hf
  simp only [push_tv, push_fresh, push_bb] at t_tv t_f t_bb t_tin t_L f_tv f_f f_bb f_tin f_L
  have hb3 : s.bb_ctr + 1 + 1 + 1 ≤ s2.bb_ctr := by omega
  refine ⟨?_, ?_, ?_, ?_, ?_, ?_, ?_, ?_, ?_⟩
  · simp only [push_tv]
    rw [f_tv, t_tv, hg_tv]
    simp [List.append_assoc]
  · simp only [push_fresh]
    omega
  · simp only [push_bb]
    omega
  · refine hg_inner.seg.append (Seg.termLabel _ _ (t_seg.append (Seg.termLabel _ _
      (f_seg.append (Seg.termLabel _ _ Seg.nil)))))
  · simp only [push_fresh, tempDsts_append, tempDsts_cons_term, tempDsts_cons_label,
      List.nil_append, List.append_nil, tempDsts_nil]
    exact tempsIn_append hg_t (tempsIn_append t_tin f_tin t_f f_f) hg_f (le_trans t_f f_f)
  · simp only [tempDsts_append, tempDsts_cons_term, tempDsts_cons_label,
      List.nil_append, List.append_nil, tempDsts_nil]
    exact tempsIn_append_nodup hg_t (tempsIn_append t_tin f_tin t_f f_f) hg_nd
      (tempsIn_append_nodup t_tin f_tin t_tnd f_tnd)
  · simp only [push_bb, labelsOf_append, labelsOf_cons_term, labelsOf_cons_label,
      labelsOf_nil, hg_inner.labels_nil, List.nil_append, List.append_nil,
      List.singleton_append]
    intro x hx
    rcases List.mem_cons.mp hx with h | h
    · exact ⟨s.bb_ctr + 1, h, by omega, by omega⟩
    rcases List.mem_append.mp h with h | h
    · obtain ⟨k, hk, h1, h2⟩ := t_L x h
      exact ⟨k, hk, by omega, by omega⟩
    rcases List.mem_cons.mp h with h | h
    · exact ⟨s.bb_ctr + 1 + 1, h, by omega, by omega⟩
    rcases List.mem_append.mp h with h | h
    · obtain ⟨k, hk, h1, h2⟩ := f_L x h
      exact ⟨k, hk, by omega, by omega⟩
    · exact ⟨s.bb_ctr + 1 + 1 + 1, List.mem_singleton.mp h, by omega, by omega⟩
  · simp only [labelsOf_append, labelsOf_cons_term, labelsOf_cons_label, labelsOf_nil,
      hg_inner.labels_nil, List.nil_append, List.append_nil, List.singleton_append]
    have ne12 : mkLbl (s.bb_ctr + 1) ≠ mkLbl (s.bb_ctr + 1 + 1) := by
      intro h; have := mkLbl_inj h; omega
    have ne13 : mkLbl (s.bb_ctr + 1) ≠ mkLbl (s.bb_ctr + 1 + 1 + 1) := by
      intro h; have := mkLbl_inj h; omega
    have ne23 : mkLbl (s.bb_ctr + 1 + 1) ≠ mkLbl (s.bb_ctr + 1 + 1 + 1) := by
      intro h; have := mkLbl_inj h; omega
    have h1t : mkLbl (s.bb_ctr + 1) ∉ labelsOf dt :=
      labelsIn_notMem t_L (Or.inl (by omega))
    have h1f : mkLbl (s.bb_ctr + 1) ∉ labelsOf df :=
      labelsIn_notMem f_L (Or.inl (by omega))
    have h2t : mkLbl (s.bb_ctr + 1 + 1) ∉ labelsOf dt :=
      labelsIn_notMem t_L (Or.inl (by omega))
    have h2f : mkLbl (s.bb_ctr + 1 + 1) ∉ labelsOf df :=
      labelsIn_notMem f_L (Or.inl (by omega))
    have h3t : mkLbl (s.bb_ctr + 1 + 1 + 1) ∉ labelsOf dt :=
      labelsIn_notMem t_L (Or.inl (by omega))
    have h3f : mkLbl (s.bb_ctr + 1 + 1 + 1) ∉ labelsOf df :=
      labelsIn_notMem f_L (Or.inl (by omega))
    have htf : ∀ x ∈ labelsOf dt, x ∉ labelsOf df :=
      labelsIn_disjoint t_L f_L le_rfl
    rw [List.nodup_cons]
    constructor
    · intro hm
      rcases List.mem_append.mp hm with h | h
      · exact h1t h
      rcases List.mem_cons.mp h with h | h
      · exact ne12 h
      rcases List.mem_append.mp h with h | h
      · exact h1f h
      · exact ne13 (List.mem_singleton.mp h)
    rw [List.nodup_append]
    refine ⟨t_LN, ?_, ?_⟩
    · rw [List.nodup_cons]
      constructor
      · intro hm
        rcases List.mem_append.mp hm with h | h
        · exact h2f h
        · exact ne23 (List.mem_singleton.mp h)
      rw [List.nodup_append]
      refine ⟨f_LN, List.nodup_singleton _, ?_⟩
      intro x hx hm
      rw [List.mem_singleton] at hm
      subst hm
      exact h3f hx
    · intro x hx hm
      obtain ⟨k, hk, hk1, hk2⟩ := t_L x hx
      rcases List.mem_cons.mp hm with h | h
      · subst hk; have := mkLbl_inj h; omega
      rcases List.mem_append.mp h with h | h
      · exact htf x hx h
      · rw [List.mem_singleton] at h
        subst hk; have := mkLbl_inj h; omega
  · simp only [labelsOf_append, labelsOf_cons_term, labelsOf_cons_label, labelsOf_nil,
      hg_inner.labels_nil, List.nil_append, List.append_nil, List.singleton_append,
      List.length_cons, List.length_append, List.length_singleton, List.length_nil,
      t_len, f_len]
    omega

theorem countIfStmt_assign (dst : String) (e : Expr) : countIfStmt (.assign dst e) = 0 := by
  rw [countIfStmt]

theorem countIfStmt_print (e : Expr) : countIfStmt (.print e) = 0 := by
  rw [countIfStmt]

theorem countIfStmt_read (x : String) : countIfStmt (.read x) = 0 := by
  rw [countIfStmt]

theorem countIfStmt_if (g : Expr) (tt ff : List Stmt) :
    countIfStmt (.ifS g tt ff) = 1 + countIfs tt + countIfs ff := by
  rw [countIfStmt]

theorem countIfs_nil : countIfs [] = 0 := by
  rw [countIfs]

theorem countIfs_cons (st : Stmt) (r : List Stmt) :
    countIfs (st :: r) = countIfStmt st + countIfs r := by
  rw [countIfs]

/-- Restate a `SegOut` from a start state with the same translation vector
and counters (used to strip an `add_decl`, which only touches `decl`). -/
theorem SegOut.cast_start {s0 s s' : Lower} {d : List TvEntry} {cnt : Nat}
    (h : SegOut s s' d cnt) (htv : s0.tv = s.tv) (hf : s0.fresh_ctr = s.fresh_ctr)
    (hb : s0.bb_ctr = s.bb_ctr) : SegOut s0 s' d cnt := by
  obtain ⟨tv, f, b, sg, t, nd, L, LN, len⟩ := h
  exact ⟨by rw [htv]; exact tv, by rw [hf]; exact f, by rw [hb]; exact b, sg,
    by rw [hf]; exact t, nd, by rw [hb]; exact L, LN, len⟩

/-- Extend a `SegOut` by one pushed instruction that introduces no
temporary (`Copy`, `Print` or `Read`). -/
theorem SegOut.push_inner {s s' : Lower} {d : List TvEntry} {cnt : Nat}
    (h : SegOut s s' d cnt) (i : Instruction) (hi : tempDsts [.inner i] = []) :
    SegOut s (s'.push (.inner i)) (d ++ [.inner i]) cnt := by
  obtain ⟨tv, f, b, sg, t, nd, L, LN, len⟩ := h
  refine ⟨?_, ?_, ?_, ?_, ?_, ?_, ?_, ?_, ?_⟩
  · simp only [push_tv, tv, List.append_assoc]
  · simpa using f
  · simpa using b
  · exact sg.append (Seg.innerCons i Seg.nil)
  · simp only [push_fresh, tempDsts_append, hi, List.append_nil]
    exact t
  · simp only [tempDsts_append, hi, List.append_nil]
    exact nd
  · simp only [push_bb, labelsOf_append, labelsOf_cons_inner, labelsOf_nil, List.append_nil]
    exact L
  · simp only [labelsOf_append, labelsOf_cons_inner, labelsOf_nil, List.append_nil]
    exact LN
  · simp only [labelsOf_append, labelsOf_cons_inner, labelsOf_nil, List.append_nil]
    exact len

/-- The structural lemma for statement lowering, by strong induction on the
size of the syntax tree (statements contain nested statement lists): each
statement (or statement list) appends one well-formed segment whose labels
number three per `If` node. -/
theorem lower_stmt_stmts_out : ∀ n : Nat,
    (∀ st : Stmt, sizeOf st ≤ n → ∀ s : Lower,
      ∃ d, SegOut s (s.lower_stmt st) d (3 * countIfStmt st)) ∧
    (∀ l : List Stmt, sizeOf l ≤ n → ∀ s : Lower,
      ∃ d, SegOut s (s.lower_stmts l) d (3 * countIfs l)) := by
  intro n
  induction n using Nat.strong_induction_on with
  | _ n ih =>
  constructor
  · intro st hsz s
    cases st with
    | assign dst e =>
        rw [lower_stmt_assign]
        simp only [countIfStmt_assign, Nat.mul_zero]
        obtain ⟨de, hin, hseg⟩ := lower_expr_segOut e (s.add_decl dst)
        have h0 : SegOut s ((s.add_decl dst).lower_expr e).1 de 0 :=
          hseg.cast_start (by simp) (by simp) (by simp)
        exact ⟨_, h0.push_inner (.copy dst ((s.add_decl dst).lower_expr e).2) rfl⟩
    | print e =>
        rw [lower_stmt_print]
        simp only [countIfStmt_print, Nat.mul_zero]
        obtain ⟨de, hin, hseg⟩ := lower_expr_segOut e s
        exact ⟨_, hseg.push_inner (.print (s.lower_expr e).2) rfl⟩
    | read x =>
        rw [lower_stmt_read]
        simp only [countIfStmt_read, Nat.mul_zero]
        refine ⟨[.inner (.read x)], ?_, ?_, ?_, ?_, ?_, ?_, ?_, ?_, ?_⟩
        · simp
        · simp
        · simp
        · exact Seg.innerCons _ Seg.nil
        · intro y hy
          simp at hy
        · simp
        · intro y hy
          simp at hy
        · simp
        · simp
    | ifS g tt ff =>
        rw [lower_stmt_if]
        have hsz' : sizeOf tt < n ∧ sizeOf ff < n := by
          simp only [Stmt.ifS.sizeOf_spec] at hsz
          omega
        obtain ⟨dg, gtv, ginner, gf, gbb, gt, gnd⟩ :=
          lower_expr_out g { s with bb_ctr := s.bb_ctr + 1 + 1 + 1 }
        obtain ⟨dt, htseg⟩ := (ih (sizeOf tt) hsz'.1).2 tt le_rfl
          (((({ s with bb_ctr := s.bb_ctr + 1 + 1 + 1 } : Lower).lower_expr g).1.push
            (.term (.branch (({ s with bb_ctr := s.bb_ctr + 1 + 1 + 1 } : Lower).lower_expr g).2
              (mkLbl (s.bb_ctr + 1)) (mkLbl (s.bb_ctr + 1 + 1))))).push
            (.label (mkLbl (s.bb_ctr + 1))))
        obtain ⟨df, hfseg⟩ := (ih (sizeOf ff) hsz'.2).2 ff le_rfl
          (((Lower.lower_stmts
            (((({ s with bb_ctr := s.bb_ctr + 1 + 1 + 1 } : Lower).lower_expr g).1.push
              (.term (.branch (({ s with bb_ctr := s.bb_ctr + 1 + 1 + 1 } : Lower).lower_expr g).2
                (mkLbl (s.bb_ctr + 1)) (mkLbl (s.bb_ctr + 1 + 1))))).push
              (.label (mkLbl (s.bb_ctr + 1)))) tt).push
            (.term (.jump (mkLbl (s.bb_ctr + 1 + 1 + 1))))).push
            (.label (mkLbl (s.bb_ctr + 1 + 1))))
        refine ⟨_, segOut_if_assembly s _ _ _ _ dg dt df _ _ _
          gtv ginner gf gbb gt gnd htseg hfseg ?_⟩
        rw [countIfStmt_if]
        ring
  · intro l hl s
    cases l with
    | nil =>
        rw [lower_stmts_nil]
        simp only [countIfs_nil, Nat.mul_zero]
        refine ⟨[], by simp, le_rfl, le_rfl, Seg.nil, ?_, by simp, ?_, by simp, rfl⟩
        · intro y hy
          simp at hy
        · intro y hy
          simp at hy
    | cons st r =>
        have h1 : sizeOf st < n ∧ sizeOf r < n := by
          simp only [List.cons.sizeOf_spec] at hl
          omega
        obtain ⟨d1, hseg1⟩ := (ih (sizeOf st) h1.1).1 st le_rfl s
        obtain ⟨d2, hseg2⟩ := (ih (sizeOf r) h1.2).2 r le_rfl (s.lower_stmt st)
        rw [lower_stmts_cons]
        refine ⟨d1 ++ d2, ?_⟩
        have hcomb := hseg1.trans hseg2
        have heq : 3 * countIfStmt st + 3 * countIfs r = 3 * countIfs (st :: r) := by
          rw [countIfs_cons]; ring
        rw [← heq]
        exact hcomb

/-! ### The CFG construction scan -/

theorem constructCfgLoop_nil (curr : String) (buf : List Instruction)
    (m : List (String × Block)) : constructCfgLoop [] curr buf m = m := rfl

theorem constructCfgLoop_label (id : String) (rest : List TvEntry) (curr : String)
    (buf : List Instruction) (m : List (String × Block)) :
    constructCfgLoop (.label id :: rest) curr buf m = constructCfgLoop rest id buf m := rfl

theorem constructCfgLoop_inner (i : Instruction) (rest : List TvEntry) (curr : String)
    (buf : List Instruction) (m : List (String × Block)) :
    constructCfgLoop (.inner i :: rest) curr buf m =
      constructCfgLoop rest curr (buf ++ [i]) m := rfl

theorem constructCfgLoop_term (t : Terminator) (rest : List TvEntry) (curr : String)
    (buf : List Instruction) (m : List (String × Block)) :
    constructCfgLoop (.term t :: rest) curr buf m =
      constructCfgLoop rest curr [] (mapInsert curr ⟨buf, t⟩ m) := rfl

theorem mapInsert_keys_notMem (k : String) (v : Block) :
    ∀ m : List (String × Block), k ∉ m.map Prod.fst →
      (mapInsert k v m).map Prod.fst = m.map Prod.fst ++ [k] := by
  intro m
  induction m with
  | nil => intro _; rfl
  | cons kv rest ih =>
      intro hk
      simp only [List.map_cons, List.mem_cons] at hk
      push_neg at hk
      rw [mapInsert, if_neg hk.1]
      simp only [List.map_cons, ih hk.2, List.cons_append]

/-- Scanning an all-`Inner` run up to the next terminator: the terminator is
attributed to the current label (the most recently seen one), together with
the whole accumulated buffer. -/
theorem constructCfgLoop_allInner :
    ∀ mid : List TvEntry, AllInner mid → ∀ (t : Terminator) (rest : List TvEntry)
      (curr : String) (buf : List Instruction) (m : List (String × Block)),
      constructCfgLoop (mid ++ (.term t :: rest)) curr buf m =
        constructCfgLoop rest curr [] (mapInsert curr ⟨buf ++ innersOf mid, t⟩ m) := by
  intro mid
  induction mid with
  | nil =>
      intro _ t rest curr buf m
      simp only [List.nil_append, innersOf_nil, List.append_nil]
      rfl
  | cons x xs ih =>
      intro h t rest curr buf m
      obtain ⟨i, hi⟩ := h x (by simp)
      subst hi
      rw [List.cons_append, constructCfgLoop_inner,
        ih (fun y hy => h y (by simp [hy])) t rest curr (buf ++ [i]) m]
      simp [List.append_assoc]

/-- Scanning a well-formed segment followed by a final terminator: the keys
of the resulting mapping are the keys already present, then the current
label, then every label opened in the segment, in that order — each
terminator closes exactly the most recently opened label. -/
theorem constructCfgLoop_keys :
    ∀ {d : List TvEntry}, Seg d → ∀ (t : Terminator) (curr : String)
      (buf : List Instruction) (m : List (String × Block)),
      (curr :: labelsOf d).Nodup →
      (∀ x ∈ curr :: labelsOf d, x ∉ m.map Prod.fst) →
      (constructCfgLoop (d ++ [.term t]) curr buf m).map Prod.fst =
        m.map Prod.fst ++ curr :: labelsOf d := by
  intro d hd
  induction hd with
  | nil =>
      intro t curr buf m hnd hnm
      rw [List.nil_append, constructCfgLoop_term, constructCfgLoop_nil,
        mapInsert_keys_notMem curr ⟨buf, t⟩ m (hnm curr (by simp))]
      rfl
  | innerCons i hr ih =>
      intro t curr buf m hnd hnm
      rw [List.cons_append, constructCfgLoop_inner]
      exact ih t curr (buf ++ [i]) m (by simpa using hnd) (by simpa using hnm)
  | termLabel u l hr ih =>
      intro t curr buf m hnd hnm
      rw [List.cons_append, constructCfgLoop_term, List.cons_append, constructCfgLoop_label]
      have hcurrm : curr ∉ m.map Prod.fst := hnm curr (by simp)
      have hkeys : (mapInsert curr ⟨buf, u⟩ m).map Prod.fst = m.map Prod.fst ++ [curr] :=
        mapInsert_keys_notMem curr ⟨buf, u⟩ m hcurrm
      have hnd2 := hnd
      simp only [labelsOf_cons_term, labelsOf_cons_label] at hnd2
      rw [ih t l [] (mapInsert curr ⟨buf, u⟩ m) hnd2.of_cons ?side]
      · simp only [hkeys, labelsOf_cons_term, labelsOf_cons_label]
        simp [List.append_assoc]
      case side =>
        intro x hx
        rw [hkeys]
        simp only [List.mem_append, List.mem_singleton]
        push_neg
        constructor
        · exact hnm x (by simp only [labelsOf_cons_term, labelsOf_cons_label]; simp [hx])
        · intro hxc
          subst hxc
          simp only [labelsOf_cons_term, labelsOf_cons_label, List.nodup_cons] at hnd
          exact hnd.1 hx

/-- In a well-formed segment the terminators and the opened labels are in
bijection: each `Term` is immediately followed by the `Label` it hands over
to. -/
theorem Seg.terms_length {d : List TvEntry} (h : Seg d) :
    (termsOf d).length = (labelsOf d).length := by
  induction h with
  | nil => rfl
  | innerCons i _ ih => simpa using ih
  | termLabel t l _ ih => simpa using ih

/-- `mapInsert` with a key that is not yet present appends a new entry and
replaces nothing. -/
theorem mapInsert_eq_append (k : String) (v : Block) :
    ∀ m : List (String × Block), k ∉ m.map Prod.fst →
      mapInsert k v m = m ++ [(k, v)] := by
  intro m
  induction m with
  | nil => intro _; rfl
  | cons kv rest ih =>
      intro hk
      simp only [List.map_cons, List.mem_cons] at hk
      push_neg at hk
      rw [mapInsert, if_neg hk.1, ih hk.2]
      rfl

/-- Comparison definition for the never-overwritten clause of C6: the same
scan as `constructCfgLoop`, except that every flush *appends* its entry to
the mapping unconditionally instead of calling `mapInsert` (which replaces
the value when the key already exists).  The two scans agree exactly when no
insertion ever hits an existing key, i.e. when no block is ever
overwritten. -/
def constructCfgLoopApp : List TvEntry → String → List Instruction → List (String × Block) → List (String × Block)
  | [], _, _, m => m
  | .label id :: rest, _, buf, m => constructCfgLoopApp rest id buf m
  | .inner i :: rest, curr, buf, m => constructCfgLoopApp rest curr (buf ++ [i]) m
  | .term t :: rest, curr, buf, m => constructCfgLoopApp rest curr [] (m ++ [(curr, ⟨buf, t⟩)])

/-- The append-only CFG constructor built on `constructCfgLoopApp`. -/
def construct_cfg_app (tv : List TvEntry) : List (String × Block) :=
  match tv with
  | .label id :: rest => constructCfgLoopApp rest id [] []
  | _ => []

/-- On a well-formed segment whose labels are fresh, the real scan and the
append-only scan coincide: every insertion of the run uses a key absent from
the mapping, so no block — in particular not the `entry` block — is ever
overwritten by a later insertion. -/
theorem constructCfgLoop_eq_app :
    ∀ {d : List TvEntry}, Seg d → ∀ (t : Terminator) (curr : String)
      (buf : List Instruction) (m : List (String × Block)),
      (curr :: labelsOf d).Nodup →
      (∀ x ∈ curr :: labelsOf d, x ∉ m.map Prod.fst) →
      constructCfgLoop (d ++ [.term t]) curr buf m =
        constructCfgLoopApp (d ++ [.term t]) curr buf m := by
  intro d hd
  induction hd with
  | nil =>
      intro t curr buf m hnd hnm
      rw [List.nil_append, constructCfgLoop_term, constructCfgLoop_nil,
        mapInsert_eq_append curr ⟨buf, t⟩ m (hnm curr (by simp))]
      rfl
  | innerCons i hr ih =>
      intro t curr buf m hnd hnm
      rw [List.cons_append, constructCfgLoop_inner]
      rw [ih t curr (buf ++ [i]) m (by simpa using hnd) (by simpa using hnm)]
      rfl
  | termLabel u l hr ih =>
      rename_i r
      intro t curr buf m hnd hnm
      have hcurrm : curr ∉ m.map Prod.fst := hnm curr (by simp)
      have hins : mapInsert curr ⟨buf, u⟩ m = m ++ [(curr, ⟨buf, u⟩)] :=
        mapInsert_eq_append curr ⟨buf, u⟩ m hcurrm
      have hnd2 := hnd
      simp only [labelsOf_cons_term, labelsOf_cons_label] at hnd2
      have hside : ∀ x ∈ l :: labelsOf r, x ∉ (m ++ [(curr, (⟨buf, u⟩ : Block))]).map Prod.fst := by
        intro x hx
        simp only [List.map_append, List.mem_append, List.map_cons, List.map_nil,
          List.mem_singleton]
        push_neg
        constructor
        · exact hnm x (by simp only [labelsOf_cons_term, labelsOf_cons_label]; simp [hx])
        · intro hxc
          subst hxc
          exact (List.nodup_cons.mp hnd2).1 hx
      rw [List.cons_append, constructCfgLoop_term, List.cons_append, constructCfgLoop_label,
        hins]
      exact ih t l [] (m ++ [(curr, ⟨buf, u⟩)]) hnd2.of_cons hside

/-! ### Program-level structure -/

/-- The translation vector of a whole run: the `entry` label, one
well-formed segment for the statements, and the final `Exit`, with all
generated temporaries and labels pairwise distinct and three labels per
`If` node. -/
theorem lower_run_structure (p : Program) :
    ∃ d, (Lower.new.finalState p).tv = .label "entry" :: (d ++ [.term .exit]) ∧
      Seg d ∧
      (tempDsts d).Nodup ∧
      (labelsOf d).Nodup ∧
      LabelsIn 0 ((Lower.new.push (.label "entry")).lower_stmts p.stmts).bb_ctr (labelsOf d) ∧
      (labelsOf d).length = 3 * countIfs p.stmts := by
  obtain ⟨d, htv, hf, hb, hseg, ht, htnd, hL, hLN, hlen⟩ :=
    (lower_stmt_stmts_out (sizeOf p.stmts)).2 p.stmts le_rfl (Lower.new.push (.label "entry"))
  refine ⟨d, ?_, hseg, htnd, hLN, ?_, hlen⟩
  · rw [Lower.finalState, push_tv, htv]
    rfl
  · exact hL

theorem entry_notMem_labels {lo hi : Nat} {L : List String} (h : LabelsIn lo hi L) :
    "entry" ∉ L := by
  intro hm
  obtain ⟨k, hk, _, _⟩ := h _ hm
  exact mkLbl_ne_entry k hk.symm

/-- The keys of the block mapping of a lowered program: `"entry"` first,
then the generated labels, pairwise distinct, three per `If` node. -/
theorem lower_block_keys (p : Program) :
    ∃ L, ((lower p).block).map Prod.fst = "entry" :: L ∧
      ("entry" :: L).Nodup ∧ L.length = 3 * countIfs p.stmts := by
  obtain ⟨d, htv, hseg, htnd, hLN, hL, hlen⟩ := lower_run_structure p
  refine ⟨labelsOf d, ?_, ?_, hlen⟩
  · have hblock : (lower p).block = constructCfgLoop (d ++ [.term .exit]) "entry" [] [] := by
      rw [lower, Lower.lower_program]
      simp only []
      rw [htv]
      rfl
    rw [hblock, constructCfgLoop_keys hseg .exit "entry" [] []
      (List.nodup_cons.mpr ⟨entry_notMem_labels hL, hLN⟩) (by intro x hx; simp)]
    rfl
  · exact List.nodup_cons.mpr ⟨entry_notMem_labels hL, hLN⟩

/-! ### Straight-line programs -/

/-- An expression that is a single operand: `Var` or `Const`. -/
def atomExpr : Expr → Bool
  | .var _ => true
  | .const _ => true
  | .binOp _ _ _ => false
  | .negate _ => false

/-- A straight-line statement: `Assign`/`Print`/`Read` whose expression is a
single operand. -/
def simpleStmt : Stmt → Bool
  | .assign _ e => atomExpr e
  | .print e => atomExpr e
  | .read _ => true
  | .ifS _ _ _ => false

/-- Number of `Const` instructions emitted for an expression: one per
literal operand (`Negate` adds the literal `0` of its desugaring). -/
def exprConstCount : Expr → Nat
  | .var _ => 0
  | .const _ => 1
  | .binOp _ lhs rhs => exprConstCount lhs + exprConstCount rhs
  | .negate e => 1 + exprConstCount e

/-- Literal-operand count of a straight-line statement (an `If` statement is
never straight-line, so its count is irrelevant and set to `0`). -/
def stmtConstCount : Stmt → Nat
  | .assign _ e => exprConstCount e
  | .print e => exprConstCount e
  | .read _ => 0
  | .ifS _ _ _ => 0

/-- Literal-operand count of a straight-line statement list. -/
def stmtsConstCount : List Stmt → Nat
  | [] => 0
  | st :: r => stmtConstCount st + stmtsConstCount r

theorem AllInner.innersOf_length {d : List TvEntry} (h : AllInner d) :
    (innersOf d).length = d.length := by
  induction d with
  | nil => rfl
  | cons x r ih =>
      obtain ⟨i, hi⟩ := h x (by simp)
      subst hi
      simp only [innersOf_cons_inner, List.length_cons]
      rw [ih fun y hy => h y (by simp [hy])]

/-- One straight-line statement appends one instruction, plus one `Const`
instruction when its operand is a literal. -/
theorem lower_stmt_simple (st : Stmt) (h : simpleStmt st = true) (s : Lower) :
    ∃ d, (s.lower_stmt st).tv = s.tv ++ d ∧ AllInner d ∧
      d.length = 1 + stmtConstCount st := by
  cases st with
  | assign dst e =>
      cases e with
      | var x =>
          rw [lower_stmt_assign, lower_expr_var]
          exact ⟨[.inner (.copy dst x)], by simp, fun y hy => ⟨_, by simpa using hy⟩, rfl⟩
      | const n =>
          rw [lower_stmt_assign, lower_expr_const]
          refine ⟨[.inner (.const (mkTemp "_const" (s.fresh_ctr + 1)) n),
            .inner (.copy dst (mkTemp "_const" (s.fresh_ctr + 1)))], by simp, ?_, rfl⟩
          intro y hy
          rcases List.mem_cons.mp hy with hy | hy
          · exact ⟨_, hy⟩
          · exact ⟨_, List.mem_singleton.mp hy⟩
      | binOp op lhs rhs => simp [simpleStmt, atomExpr] at h
      | negate e' => simp [simpleStmt, atomExpr] at h
  | print e =>
      cases e with
      | var x =>
          rw [lower_stmt_print, lower_expr_var]
          exact ⟨[.inner (.print x)], by simp, fun y hy => ⟨_, by simpa using hy⟩, rfl⟩
      | const n =>
          rw [lower_stmt_print, lower_expr_const]
          refine ⟨[.inner (.const (mkTemp "_const" (s.fresh_ctr + 1)) n),
            .inner (.print (mkTemp "_const" (s.fresh_ctr + 1)))], by simp, ?_, rfl⟩
          intro y hy
          rcases List.mem_cons.mp hy with hy | hy
          · exact ⟨_, hy⟩
          · exact ⟨_, List.mem_singleton.mp hy⟩
      | binOp op lhs rhs => simp [simpleStmt, atomExpr] at h
      | negate e' => simp [simpleStmt, atomExpr] at h
  | read x =>
      rw [lower_stmt_read]
      exact ⟨[.inner (.read x)], by simp, fun y hy => ⟨_, by simpa using hy⟩, rfl⟩
  | ifS g tt ff => simp [simpleStmt] at h

/-- A straight-line statement list appends only plain instructions, one per
statement plus one per literal operand. -/
theorem lower_stmts_simple (l : List Stmt) (h : l.all simpleStmt = true) :
    ∀ s : Lower, ∃ d, (s.lower_stmts l).tv = s.tv ++ d ∧ AllInner d ∧
      d.length = l.length + stmtsConstCount l := by
  induction l with
  | nil =>
      intro s
      rw [lower_stmts_nil]
      exact ⟨[], by simp, fun y hy => absurd hy (List.not_mem_nil y), rfl⟩
  | cons st r ih =>
      intro s
      rw [List.all_cons, Bool.and_eq_true] at h
      obtain ⟨d1, h1tv, h1in, h1len⟩ := lower_stmt_simple st h.1 s
      obtain ⟨d2, h2tv, h2in, h2len⟩ := ih h.2 (s.lower_stmt st)
      rw [lower_stmts_cons]
      refine ⟨d1 ++ d2, ?_, allInner_append h1in h2in, ?_⟩
      · rw [h2tv, h1tv, List.append_assoc]
      · rw [List.length_append, h1len, h2len, List.length_cons, stmtsConstCount]
        omega

/-! ### Fuelled lowering

The recursion of `lower_expr`/`lower_stmt` is total; to state that as a
theorem rather than rely on the meta-level fact that the definitions were
accepted, a step-indexed version returning `Option` is given: `none` means
the fuel ran out.  For every input some finite fuel suffices and the result
agrees with the total functions, so lowering terminates with no failure
path. -/

def lowerExprFuel : Nat → Lower → Expr → Option (Lower × String)
  | 0, _, _ => none
  | f + 1, s, e =>
      match e with
      | .var x => some (s.add_decl x, x)
      | .const n =>
          let c := s.mk_var "_const"
          some (c.1.push (.inner (.const c.2 n)), c.2)
      | .binOp op lhs rhs => do
          let a ← lowerExprFuel f s lhs
          let b ← lowerExprFuel f a.1 rhs
          let c := b.1.mk_var "_t"
          some (c.1.push (.inner (.arith op c.2 a.2 b.2)), c.2)
      | .negate e' => lowerExprFuel f s (.binOp .sub (.const 0) e')

theorem lowerExprFuel_eq (f : Nat) :
    ∀ e : Expr, e.weight ≤ f → ∀ s : Lower,
      lowerExprFuel f s e = some (s.lower_expr e) := by
  induction f with
  | zero =>
      intro e he
      exact absurd he (by have := e.weight_pos; omega)
  | succ f ih =>
      intro e he s
      cases e with
      | var x => rw [lowerExprFuel, lower_expr_var]
      | const n => rw [lowerExprFuel, lower_expr_const]
      | binOp op lhs rhs =>
          have hl : lhs.weight ≤ f := by simp [Expr.weight] at he; omega
          have hr : rhs.weight ≤ f := by simp [Expr.weight] at he; omega
          rw [lowerExprFuel]
          simp [ih lhs hl, ih rhs hr, lower_expr_binOp']
      | negate e' =>
          have hw : (Expr.binOp .sub (.const 0) e').weight ≤ f := by
            simp [Expr.weight] at he ⊢; omega
          rw [lowerExprFuel, ih _ hw, lower_expr_negate]

mutual

/-- Size measure used as sufficient fuel for statement lowering. -/
def stmtWeight : Stmt → Nat
  | .assign _ e => 1 + e.weight
  | .print e => 1 + e.weight
  | .read _ => 1
  | .ifS g tt ff => 1 + g.weight + stmtsWeight tt + stmtsWeight ff

/-- Size measure used as sufficient fuel for statement-list lowering. -/
def stmtsWeight : List Stmt → Nat
  | [] => 0
  | st :: r => 1 + stmtWeight st + stmtsWeight r

end

mutual

def lowerStmtFuel : Nat → Lower → Stmt → Option Lower
  | 0, _, _ => none
  | f + 1, s, st =>
      match st with
      | .assign dst e => do
          let a ← lowerExprFuel f (s.add_decl dst) e
          some (a.1.push (.inner (.copy dst a.2)))
      | .print e => do
          let a ← lowerExprFuel f s e
          some (a.1.push (.inner (.print a.2)))
      | .read x => some ((s.add_decl x).push (.inner (.read x)))
      | .ifS g tt ff => do
          let l1 := s.mk_label
          let l2 := l1.1.mk_label
          let l3 := l2.1.mk_label
          let gr ← lowerExprFuel f l3.1 g
          let s1 := (gr.1.push (.term (.branch gr.2 l1.2 l2.2))).push (.label l1.2)
          let s2 ← lowerStmtsFuel f s1 tt
          let s3 := (s2.push (.term (.jump l3.2))).push (.label l2.2)
          let s4 ← lowerStmtsFuel f s3 ff
          some ((s4.push (.term (.jump l3.2))).push (.label l3.2))

def lowerStmtsFuel : Nat → Lower → List Stmt → Option Lower
  | 0, _, _ => none
  | _ + 1, s, [] => some s
  | f + 1, s, st :: r => do
      let s1 ← lowerStmtFuel f s st
      lowerStmtsFuel f s1 r

end

theorem lowerStmtFuel_if (f : Nat) (s : Lower) (g : Expr) (tt ff : List Stmt) :
    lowerStmtFuel (f + 1) s (.ifS g tt ff) = (do
      let gr ← lowerExprFuel f ({ s with bb_ctr := s.bb_ctr + 1 + 1 + 1 } : Lower) g
      let s1 := (gr.1.push (.term (.branch gr.2 (mkLbl (s.bb_ctr + 1))
        (mkLbl (s.bb_ctr + 1 + 1))))).push (.label (mkLbl (s.bb_ctr + 1)))
      let s2 ← lowerStmtsFuel f s1 tt
      let s3 := (s2.push (.term (.jump (mkLbl (s.bb_ctr + 1 + 1 + 1))))).push
        (.label (mkLbl (s.bb_ctr + 1 + 1)))
      let s4 ← lowerStmtsFuel f s3 ff
      some ((s4.push (.term (.jump (mkLbl (s.bb_ctr + 1 + 1 + 1))))).push
        (.label (mkLbl (s.bb_ctr + 1 + 1 + 1))))) := by
  rw [lowerStmtFuel]
  rfl

theorem lowerStmtFuel_eq : ∀ f : Nat,
    (∀ st : Stmt, stmtWeight st < f → ∀ s : Lower,
      lowerStmtFuel f s st = some (s.lower_stmt st)) ∧
    (∀ l : List Stmt, stmtsWeight l < f → ∀ s : Lower,
      lowerStmtsFuel f s l = some (s.lower_stmts l)) := by
  intro f
  induction f with
  | zero => exact ⟨fun _ h => absurd h (by omega), fun _ h => absurd h (by omega)⟩
  | succ f ih =>
      constructor
      · intro st hw s
        cases st with
        | assign dst e =>
            have he : e.weight ≤ f := by rw [stmtWeight] at hw; omega
            rw [lowerStmtFuel, lower_stmt_assign]
            simp [lowerExprFuel_eq f e he]
        | print e =>
            have he : e.weight ≤ f := by rw [stmtWeight] at hw; omega
            rw [lowerStmtFuel, lower_stmt_print]
            simp [lowerExprFuel_eq f e he]
        | read x =>
            rw [lowerStmtFuel, lower_stmt_read]
        | ifS g tt ff =>
            rw [stmtWeight] at hw
            have hg : g.weight ≤ f := by omega
            have htt : stmtsWeight tt < f := by omega
            have hff : stmtsWeight ff < f := by omega
            rw [lowerStmtFuel_if, lower_stmt_if]
            simp [lowerExprFuel_eq f g hg, (ih.2) tt htt, (ih.2) ff hff]
      · intro l hw s
        cases l with
        | nil => rw [lowerStmtsFuel, lower_stmts_nil]
        | cons st r =>
            rw [stmtsWeight] at hw
            have h1 : stmtWeight st < f := by omega
            have h2 : stmtsWeight r < f := by omega
            rw [lowerStmtsFuel, lower_stmts_cons]
            simp [(ih.1) st h1, (ih.2) r h2]

/-- Fuelled version of `lower`/`lower_program`. -/
def lowerProgramFuel (f : Nat) (p : Program) : Option TirProgram :=
  (lowerStmtsFuel f (Lower.new.push (.label "entry")) p.stmts).map fun s1 =>
    { decl := (s1.push (.term .exit)).decl,
      block := construct_cfg (s1.push (.term .exit)).tv }

/-! ### The right-operand-first variant

Comparison definition for the operand-order claim: identical to
`lower_expr` except that `BinOp` lowers `rhs` before `lhs`.  If the
left-to-right order were unobservable in the output, this variant would
produce the same result. -/

def lowerExprRF (s : Lower) (e : Expr) : Lower × String :=
  match e with
  | .var x => (s.add_decl x, x)
  | .const n =>
      let c := s.mk_var "_const"
      (c.1.push (.inner (.const c.2 n)), c.2)
  | .binOp op lhs rhs =>
      let b := lowerExprRF s rhs
      let a := lowerExprRF b.1 lhs
      let c := a.1.mk_var "_t"
      (c.1.push (.inner (.arith op c.2 a.2 b.2)), c.2)
  | .negate e' =>
      lowerExprRF s (.binOp .sub (.const 0) e')
termination_by e.weight
decreasing_by
  all_goals simp [Expr.weight]
  all_goals omega

/-! ## The claims -/

/-- C1: lowering `If{guard, tt, ff}` in any context allocates three fresh
labels (true, false, join, in that order), lowers the guard, closes the
current block with `Branch`, opens the true label, lowers the true branch
and closes it with `Jump(join)`, opens the false label, lowers the false
branch and closes it with `Jump(join)`, and finally opens the join label
without closing it; on the program
`If{guard: Var x, tt: [Print (Const 1)], ff: []}` this yields exactly four
blocks: `entry` ending in the branch, the true block holding the `Print`
instructions and ending in `Jump lbl3`, the empty false block ending in
`Jump lbl3`, and the join block ending in `Exit`. -/
theorem c1_if_statement_lowering :
    (∀ (s : Lower) (g : Expr) (tt ff : List Stmt),
      s.lower_stmt (.ifS g tt ff) =
        ((Lower.lower_stmts
            (((Lower.lower_stmts
                (((({ s with bb_ctr := s.bb_ctr + 1 + 1 + 1 } : Lower).lower_expr g).1.push
                    (.term (.branch
                      (({ s with bb_ctr := s.bb_ctr + 1 + 1 + 1 } : Lower).lower_expr g).2
                      (mkLbl (s.bb_ctr + 1)) (mkLbl (s.bb_ctr + 1 + 1))))).push
                  (.label (mkLbl (s.bb_ctr + 1)))) tt).push
              (.term (.jump (mkLbl (s.bb_ctr + 1 + 1 + 1))))).push
              (.label (mkLbl (s.bb_ctr + 1 + 1)))) ff).push
          (.term (.jump (mkLbl (s.bb_ctr + 1 + 1 + 1))))).push
          (.label (mkLbl (s.bb_ctr + 1 + 1 + 1)))) ∧
    (∀ (s : Lower) (g : Expr) (tt ff : List Stmt),
      ∃ dg dt df,
        (({ s with bb_ctr := s.bb_ctr + 1 + 1 + 1 } : Lower).lower_expr g).1.tv = s.tv ++ dg ∧
        (Lower.lower_stmts
            (((({ s with bb_ctr := s.bb_ctr + 1 + 1 + 1 } : Lower).lower_expr g).1.push
              (.term (.branch (({ s with bb_ctr := s.bb_ctr + 1 + 1 + 1 } : Lower).lower_expr g).2
                (mkLbl (s.bb_ctr + 1)) (mkLbl (s.bb_ctr + 1 + 1))))).push
              (.label (mkLbl (s.bb_ctr + 1)))) tt).tv =
          (((({ s with bb_ctr := s.bb_ctr + 1 + 1 + 1 } : Lower).lower_expr g).1.push
              (.term (.branch (({ s with bb_ctr := s.bb_ctr + 1 + 1 + 1 } : Lower).lower_expr g).2
                (mkLbl (s.bb_ctr + 1)) (mkLbl (s.bb_ctr + 1 + 1))))).push
              (.label (mkLbl (s.bb_ctr + 1)))).tv ++ dt ∧
        (s.lower_stmt (.ifS g tt ff)).tv =
          s.tv ++ (dg ++
            ([.term (.branch (({ s with bb_ctr := s.bb_ctr + 1 + 1 + 1 } : Lower).lower_expr g).2
                (mkLbl (s.bb_ctr + 1)) (mkLbl (s.bb_ctr + 1 + 1))),
              .label (mkLbl (s.bb_ctr + 1))] ++
              (dt ++ ([.term (.jump (mkLbl (s.bb_ctr + 1 + 1 + 1))),
                .label (mkLbl (s.bb_ctr + 1 + 1))] ++
                (df ++ [.term (.jump (mkLbl (s.bb_ctr + 1 + 1 + 1))),
                  .label (mkLbl (s.bb_ctr + 1 + 1 + 1))])))))) ∧
    (lower ⟨[.ifS (.var "x") [.print (.const 1)] []]⟩).block =
      [("entry", ⟨[], .branch "x" "lbl1" "lbl2"⟩),
        ("lbl1", ⟨[.const "_const_1" 1, .print "_const_1"], .jump "lbl3"⟩),
        ("lbl2", ⟨[], .jump "lbl3"⟩),
        ("lbl3", ⟨[], .exit⟩)] := by
  refine ⟨lower_stmt_if, ?_, ?_⟩
  · intro s g tt ff
    obtain ⟨dg, gtv, _, _, _, _, _⟩ :=
      lower_expr_out g { s with bb_ctr := s.bb_ctr + 1 + 1 + 1 }
    obtain ⟨dt, ttv, _, _, _, _, _, _, _, _⟩ :=
      (lower_stmt_stmts_out (sizeOf tt)).2 tt le_rfl
        (((({ s with bb_ctr := s.bb_ctr + 1 + 1 + 1 } : Lower).lower_expr g).1.push
          (.term (.branch (({ s with bb_ctr := s.bb_ctr + 1 + 1 + 1 } : Lower).lower_expr g).2
            (mkLbl (s.bb_ctr + 1)) (mkLbl (s.bb_ctr + 1 + 1))))).push
          (.label (mkLbl (s.bb_ctr + 1))))
    obtain ⟨df, ftv, _, _, _, _, _, _, _, _⟩ :=
      (lower_stmt_stmts_out (sizeOf ff)).2 ff le_rfl
        (((Lower.lower_stmts
          (((({ s with bb_ctr := s.bb_ctr + 1 + 1 + 1 } : Lower).lower_expr g).1.push
            (.term (.branch (({ s with bb_ctr := s.bb_ctr + 1 + 1 + 1 } : Lower).lower_expr g).2
              (mkLbl (s.bb_ctr + 1)) (mkLbl (s.bb_ctr + 1 + 1))))).push
            (.label (mkLbl (s.bb_ctr + 1)))) tt).push
          (.term (.jump (mkLbl (s.bb_ctr + 1 + 1 + 1))))).push
          (.label (mkLbl (s.bb_ctr + 1 + 1))))
    refine ⟨dg, dt, df, gtv, ttv, ?_⟩
    rw [lower_stmt_if]
    simp only [push_tv]
    rw [ftv]
    simp only [push_tv]
    rw [ttv]
    simp only [push_tv]
    rw [gtv]
    simp [List.append_assoc]
  · simp [lower, Lower.lower_program, Lower.finalState, Lower.lower_stmts, Lower.lower_stmt,
      Lower.lower_expr, Lower.mk_var, Lower.mk_label, Lower.add_decl, mkTemp, mkLbl,
      Lower.new, Lower.push, construct_cfg, constructCfgLoop, mapInsert]
    decide

/-- C2: the CFG constructor returns the empty mapping when the translation
vector is empty or does not start with a label; otherwise it runs one linear
scan in which a `Label` entry only moves the current-label pointer (no
flush), an `Inner` entry appends to the buffer, and a `Term` entry inserts
`(current label, Block buffer term)` and resets the buffer, so a terminator
is always attributed to the most recently seen label, together with the
whole buffer accumulated so far. -/
theorem c2_construct_cfg_scan :
    construct_cfg [] = [] ∧
    (∀ (i : Instruction) (r : List TvEntry), construct_cfg (.inner i :: r) = []) ∧
    (∀ (t : Terminator) (r : List TvEntry), construct_cfg (.term t :: r) = []) ∧
    (∀ (id : String) (r : List TvEntry), construct_cfg (.label id :: r) =
      constructCfgLoop r id [] []) ∧
    (∀ (id : String) (r : List TvEntry) (curr : String) (buf : List Instruction)
        (m : List (String × Block)),
      constructCfgLoop (.label id :: r) curr buf m = constructCfgLoop r id buf m) ∧
    (∀ (i : Instruction) (r : List TvEntry) (curr : String) (buf : List Instruction)
        (m : List (String × Block)),
      constructCfgLoop (.inner i :: r) curr buf m = constructCfgLoop r curr (buf ++ [i]) m) ∧
    (∀ (t : Terminator) (r : List TvEntry) (curr : String) (buf : List Instruction)
        (m : List (String × Block)),
      constructCfgLoop (.term t :: r) curr buf m =
        constructCfgLoop r curr [] (mapInsert curr ⟨buf, t⟩ m)) ∧
    (∀ mid : List TvEntry, AllInner mid → ∀ (t : Terminator) (rest : List TvEntry)
        (curr : String) (buf : List Instruction) (m : List (String × Block)),
      constructCfgLoop (mid ++ (.term t :: rest)) curr buf m =
        constructCfgLoop rest curr [] (mapInsert curr ⟨buf ++ innersOf mid, t⟩ m)) :=
  ⟨rfl, fun _ _ => rfl, fun _ _ => rfl, fun _ _ => rfl, fun _ _ _ _ _ => rfl,
    fun _ _ _ _ _ => rfl, fun _ _ _ _ _ => rfl, constructCfgLoop_allInner⟩

/-- Witness for C2: the attribution step at a concrete input — one plain
instruction followed by `Exit` is attributed to the current label `entry`. -/
theorem c2_construct_cfg_scan_witness :
    constructCfgLoop ([.inner (.read "a")] ++ (.term .exit :: [])) "entry" [] [] =
      constructCfgLoop [] "entry" []
        (mapInsert "entry" ⟨[] ++ innersOf [.inner (.read "a")], .exit⟩ []) :=
  c2_construct_cfg_scan.2.2.2.2.2.2.2 [.inner (.read "a")]
    (fun x hx => ⟨.read "a", by simpa using hx⟩) .exit [] "entry" [] []

/-- C3: a program of `Assign`/`Print`/`Read` statements whose expressions
are single `Var`/`Const` operands lowers to exactly one block, `entry`,
terminated by `Exit`, whose instruction count is the number of statements
plus one `Const` instruction per literal operand; `[Print (Const 0)]` gives
the single entry block `[Const{_const_1, 0}, Print _const_1]` with `Exit`,
and the empty program gives the empty entry block with `Exit`. -/
theorem c3_straight_line_reduction :
    (∀ p : Program, p.stmts.all simpleStmt = true →
      ∃ ins, (lower p).block = [("entry", ⟨ins, .exit⟩)] ∧
        ins.length = p.stmts.length + stmtsConstCount p.stmts) ∧
    (lower ⟨[.print (.const 0)]⟩).block =
      [("entry", ⟨[.const "_const_1" 0, .print "_const_1"], .exit⟩)] ∧
    (lower ⟨[]⟩).block = [("entry", ⟨[], .exit⟩)] := by
  refine ⟨?_, ?_, ?_⟩
  · intro p hp
    obtain ⟨d, htv, hin, hlen⟩ :=
      lower_stmts_simple p.stmts hp (Lower.new.push (.label "entry"))
    refine ⟨innersOf d, ?_, ?_⟩
    · have hfin : (Lower.new.finalState p).tv = .label "entry" :: (d ++ [.term .exit]) := by
        rw [Lower.finalState, push_tv, htv]
        rfl
      have hblock : (lower p).block = constructCfgLoop (d ++ [.term .exit]) "entry" [] [] := by
        rw [lower, Lower.lower_program]
        simp only []
        rw [hfin]
        rfl
      rw [hblock, constructCfgLoop_allInner d hin .exit [] "entry" [] []]
      rfl
    · rw [hin.innersOf_length, hlen]
  · simp [lower, Lower.lower_program, Lower.finalState, Lower.lower_stmts, Lower.lower_stmt,
      Lower.lower_expr, Lower.mk_var, Lower.add_decl, mkTemp, Lower.new, Lower.push,
      construct_cfg, constructCfgLoop, mapInsert]
    decide
  · simp [lower, Lower.lower_program, Lower.finalState, Lower.lower_stmts, Lower.new,
      Lower.push, construct_cfg, constructCfgLoop, mapInsert]

/-- Witness for C3: the one-statement program `[Read x]` is straight-line
and lowers to one entry block with `1 + 0` instructions. -/
theorem c3_straight_line_reduction_witness :
    ∃ ins, (lower ⟨[.read "x"]⟩).block = [("entry", ⟨ins, .exit⟩)] ∧
      ins.length = ([Stmt.read "x"] : List Stmt).length + stmtsConstCount [.read "x"] :=
  c3_straight_line_reduction.1 ⟨[.read "x"]⟩ (by rfl)

/-- C4: every `If` node contributes exactly three blocks beyond the entry
block: for every program the block mapping has `1 + 3 · (number of If nodes
in the syntax tree)` entries. -/
theorem c4_if_expansion_block_count (p : Program) :
    ((lower p).block).length = 1 + 3 * countIfs p.stmts := by
  obtain ⟨L, hkeys, hnd, hlen⟩ := lower_block_keys p
  have : ((lower p).block).length = (((lower p).block).map Prod.fst).length :=
    (List.length_map _ _).symm
  rw [this, hkeys, List.length_cons, hlen]
  omega

/-- C5: all generated names come from the two counters: `mk_var` bumps
`fresh_ctr` and returns `prefix ++ "_" ++ counter`, `mk_label` bumps
`bb_ctr` and returns `"lbl" ++ counter`, both incremented immediately before
the allocation; consequently, over a whole lowering run, the destinations of
the emitted `Const`/`Arith` instructions are pairwise distinct and the
labels of the translation vector are pairwise distinct. -/
theorem c5_fresh_name_uniqueness :
    (∀ (s : Lower) (pre : String), s.mk_var pre =
      (({ s with fresh_ctr := s.fresh_ctr + 1 }).add_decl (mkTemp pre (s.fresh_ctr + 1)),
        mkTemp pre (s.fresh_ctr + 1))) ∧
    (∀ s : Lower, s.mk_label = ({ s with bb_ctr := s.bb_ctr + 1 }, mkLbl (s.bb_ctr + 1))) ∧
    (∀ p : Program, (tempDsts (Lower.new.finalState p).tv).Nodup ∧
      (labelsOf (Lower.new.finalState p).tv).Nodup) := by
  refine ⟨fun _ _ => rfl, fun _ => rfl, fun p => ?_⟩
  obtain ⟨d, htv, hseg, htnd, hLN, hL, hlen⟩ := lower_run_structure p
  rw [htv]
  constructor
  · simpa using htnd
  · simp only [labelsOf_cons_label, labelsOf_append, labelsOf_cons_term, labelsOf_nil,
      List.append_nil]
    exact List.nodup_cons.mpr ⟨entry_notMem_labels hL, hLN⟩

/-- C6: the block mapping of every lowered program has `"entry"` as the key
of its first entry — it is populated first (the first terminator of the run
closes the entry block) — it occurs exactly once among the keys, and it is
never overwritten by any later block insertion during CFG construction: the
final mapping has exactly as many entries as the translation vector has
terminators (the scan performs one `mapInsert` per terminator, and
`mapInsert` adds a new entry rather than replacing one exactly when its key
is absent), and the whole scan coincides with the append-only variant
`construct_cfg_app`, so every insertion of the run — in particular every one
after the entry block's — appended a fresh entry and replaced nothing. -/
theorem c6_entry_invariant (p : Program) :
    ∃ b rest, (lower p).block = ("entry", b) :: rest ∧ "entry" ∉ rest.map Prod.fst ∧
      ((lower p).block).length = (termsOf (Lower.new.finalState p).tv).length ∧
      (lower p).block = construct_cfg_app (Lower.new.finalState p).tv := by
  obtain ⟨d, htv, hseg, htnd, hLN, hL, hlen⟩ := lower_run_structure p
  have hnd_all : ("entry" :: labelsOf d).Nodup :=
    List.nodup_cons.mpr ⟨entry_notMem_labels hL, hLN⟩
  have hblock : (lower p).block = constructCfgLoop (d ++ [.term .exit]) "entry" [] [] := by
    rw [lower, Lower.lower_program]
    simp only []
    rw [htv]
    rfl
  have happ : construct_cfg_app (Lower.new.finalState p).tv =
      constructCfgLoopApp (d ++ [.term .exit]) "entry" [] [] := by
    rw [htv]
    rfl
  have heq : (lower p).block = construct_cfg_app (Lower.new.finalState p).tv := by
    rw [hblock, happ]
    exact constructCfgLoop_eq_app hseg .exit "entry" [] [] hnd_all (by intro x hx; simp)
  obtain ⟨L, hkeys, hnd, hlenL⟩ := lower_block_keys p
  obtain ⟨x, xs, hx, hx1, hxs⟩ := List.map_eq_cons_iff.mp hkeys
  have h1 : ((lower p).block).length = L.length + 1 := by
    have h0 : ((lower p).block).length = (((lower p).block).map Prod.fst).length :=
      (List.length_map _ _).symm
    rw [h0, hkeys, List.length_cons]
  refine ⟨x.2, xs, ?_, ?_, ?_, heq⟩
  · rw [hx]
    have : x = ("entry", x.2) := Prod.ext hx1 rfl
    rw [← this]
  · rw [hxs]
    exact (List.nodup_cons.mp hnd).1
  · have h3 := hseg.terms_length
    rw [htv]
    simp only [termsOf_cons_label, termsOf_append, termsOf_cons_term, termsOf_nil,
      List.length_append, List.length_cons, List.length_nil]
    rw [h1]
    omega

/-- The general shape of `BinOp` lowering: lower the left operand, then the
right one, allocate one fresh `"_t"`-prefixed temporary, emit `Arith`, and
return the temporary. -/
theorem lower_expr_binOp_shape (s : Lower) (op : BOp) (lhs rhs : Expr) :
    ∃ d1 d2,
      (s.lower_expr lhs).1.tv = s.tv ++ d1 ∧
      ((s.lower_expr lhs).1.lower_expr rhs).1.tv = (s.lower_expr lhs).1.tv ++ d2 ∧
      (s.lower_expr (.binOp op lhs rhs)).1.tv =
        s.tv ++ (d1 ++ (d2 ++ [.inner (.arith op
          (mkTemp "_t" (((s.lower_expr lhs).1.lower_expr rhs).1.fresh_ctr + 1))
          (s.lower_expr lhs).2 ((s.lower_expr lhs).1.lower_expr rhs).2)])) ∧
      (s.lower_expr (.binOp op lhs rhs)).2 =
        mkTemp "_t" (((s.lower_expr lhs).1.lower_expr rhs).1.fresh_ctr + 1) := by
  obtain ⟨d1, h1, _, _, _, _, _⟩ := lower_expr_out lhs s
  obtain ⟨d2, h2, _, _, _, _, _⟩ := lower_expr_out rhs (s.lower_expr lhs).1
  refine ⟨d1, d2, h1, h2, ?_, ?_⟩
  · rw [lower_expr_binOp']
    simp only [push_tv, mk_var_fst_tv, mk_var_snd]
    rw [h2, h1]
    simp [List.append_assoc]
  · rw [lower_expr_binOp']
    simp

/-- C7: `Negate e` is lowered by re-entering expression lowering on
`BinOp{Sub, Const 0, e}` — from the same state the two calls return exactly
the same result — so its output is one `Const` materializing `0`, then the
entries of `e`, then one `Arith Sub`; on `Negate (Var x)` from a fresh state
this gives `[Const{_const_1, 0}, Arith{Sub, _t_2, _const_1, x}]` with result
`_t_2`. -/
theorem c7_negate_desugaring :
    (∀ (s : Lower) (e : Expr),
      s.lower_expr (.negate e) = s.lower_expr (.binOp .sub (.const 0) e)) ∧
    (∀ (s : Lower) (e : Expr), ∃ d,
      ((s.lower_expr (.const 0)).1.lower_expr e).1.tv =
        (s.lower_expr (.const 0)).1.tv ++ d ∧
      (s.lower_expr (.negate e)).1.tv =
        s.tv ++ ([.inner (.const (mkTemp "_const" (s.fresh_ctr + 1)) 0)] ++ (d ++
          [.inner (.arith .sub
            (mkTemp "_t" (((s.lower_expr (.const 0)).1.lower_expr e).1.fresh_ctr + 1))
            (mkTemp "_const" (s.fresh_ctr + 1))
            ((s.lower_expr (.const 0)).1.lower_expr e).2)])) ∧
      (s.lower_expr (.negate e)).2 =
        mkTemp "_t" (((s.lower_expr (.const 0)).1.lower_expr e).1.fresh_ctr + 1)) ∧
    (Lower.new.lower_expr (.negate (.var "x"))).1.tv =
      [.inner (.const "_const_1" 0), .inner (.arith .sub "_t_2" "_const_1" "x")] ∧
    (Lower.new.lower_expr (.negate (.var "x"))).2 = "_t_2" := by
  refine ⟨lower_expr_negate, ?_, ?_, ?_⟩
  · intro s e
    obtain ⟨d1, d2, h1, h2, h3, h4⟩ := lower_expr_binOp_shape s .sub (.const 0) e
    have hconst : (s.lower_expr (.const 0)).1.tv =
        s.tv ++ [.inner (.const (mkTemp "_const" (s.fresh_ctr + 1)) 0)] := by
      rw [lower_expr_const]
      simp
    have hd1 : d1 = [.inner (.const (mkTemp "_const" (s.fresh_ctr + 1)) 0)] :=
      List.append_cancel_left (h1.symm.trans hconst)
    have hgid : (s.lower_expr (.const 0)).2 = mkTemp "_const" (s.fresh_ctr + 1) := by
      rw [lower_expr_const]
      simp
    refine ⟨d2, h2, ?_, ?_⟩
    · rw [lower_expr_negate, h3, hd1, hgid]
    · rw [lower_expr_negate, h4]
  · simp [Lower.lower_expr, Lower.mk_var, Lower.add_decl, mkTemp, Lower.new, Lower.push]
    decide
  · simp [Lower.lower_expr, Lower.mk_var, Lower.add_decl, mkTemp, Lower.new, Lower.push]
    decide

/-- C8: lowering is total — for every syntactically valid program some
finite fuel makes the step-indexed lowering succeed, and its output is the
output of `lower`: there is no failure path. -/
theorem c8_lowering_total (p : Program) :
    ∃ f : Nat, lowerProgramFuel f p = some (lower p) := by
  refine ⟨stmtsWeight p.stmts + 1, ?_⟩
  rw [lowerProgramFuel, (lowerStmtFuel_eq (stmtsWeight p.stmts + 1)).2 p.stmts (by omega)]
  rfl

/-- Counterexample to C9 as stated: lowering
`Assign(x, BinOp{Add, Var y, Const 3})` declares, besides `x`, `y` and the
`Const` temporary `_const_1`, also the `Arith` temporary `_t_2` — the
declared set is not `{x, y}` plus one const temporary. -/
theorem c9_assign_scenario_counterexample :
    (lower ⟨[.assign "x" (.binOp .add (.var "y") (.const 3))]⟩).decl =
      ["x", "y", "_const_1", "_t_2"] ∧
    ("_t_2" : String) ∉ (["x", "y", "_const_1"] : List String) := by
  constructor
  · simp [lower, Lower.lower_program, Lower.finalState, Lower.lower_stmts, Lower.lower_stmt,
      Lower.lower_expr, Lower.mk_var, Lower.add_decl, mkTemp, Lower.new, Lower.push]
    decide
  · decide

/-- C9 (amended): lowering `Assign(x, BinOp{Add, Var y, Const 3})` produces
the declared set `{x, y, _const_1, _t_2}` — `x`, `y`, one const temporary
and one arith temporary — the entry-block instructions
`[Const{_const_1, 3}, Arith{Add, _t_2, y, _const_1}, Copy{x, _t_2}]`, and
terminator `Exit`. -/
theorem c9_assign_scenario_amended :
    lower ⟨[.assign "x" (.binOp .add (.var "y") (.const 3))]⟩ =
      { decl := ["x", "y", "_const_1", "_t_2"],
        block := [("entry", ⟨[.const "_const_1" 3, .arith .add "_t_2" "y" "_const_1",
          .copy "x" "_t_2"], .exit⟩)] } := by
  simp [lower, Lower.lower_program, Lower.finalState, Lower.lower_stmts, Lower.lower_stmt,
    Lower.lower_expr, Lower.mk_var, Lower.add_decl, mkTemp, Lower.new, Lower.push,
    construct_cfg, constructCfgLoop, mapInsert]
  decide

/-- Counterexample to C10 as stated: the left-to-right operand order *is*
observable in the output — lowering `BinOp{Add, Const 1, Const 2}` right
operand first produces a different translation vector (the two `Const`
instructions swap and the `Arith` operands swap), because lowering a `Const`
operand emits an instruction. -/
theorem c10_binop_order_counterexample :
    (Lower.new.lower_expr (.binOp .add (.const 1) (.const 2))).1.tv ≠
      (lowerExprRF Lower.new (.binOp .add (.const 1) (.const 2))).1.tv := by
  simp [Lower.lower_expr, lowerExprRF, Lower.mk_var, Lower.add_decl, mkTemp,
    Lower.new, Lower.push]
  decide

/-- C10 (amended): `BinOp{op, lhs, rhs}` lowers `lhs` before `rhs`, then
allocates one fresh `"_t"`-prefixed temporary, emits
`Arith{op, temp, lhs-result, rhs-result}` and returns the temporary; this
left-to-right order is observable in the output when both operands emit
instructions, since expression lowering has the side effect of emitting into
the translation vector (e.g. two `Const` operands). -/
theorem c10_binop_order_amended :
    (∀ (s : Lower) (op : BOp) (lhs rhs : Expr),
      ∃ d1 d2,
        (s.lower_expr lhs).1.tv = s.tv ++ d1 ∧
        ((s.lower_expr lhs).1.lower_expr rhs).1.tv = (s.lower_expr lhs).1.tv ++ d2 ∧
        (s.lower_expr (.binOp op lhs rhs)).1.tv =
          s.tv ++ (d1 ++ (d2 ++ [.inner (.arith op
            (mkTemp "_t" (((s.lower_expr lhs).1.lower_expr rhs).1.fresh_ctr + 1))
            (s.lower_expr lhs).2 ((s.lower_expr lhs).1.lower_expr rhs).2)])) ∧
        (s.lower_expr (.binOp op lhs rhs)).2 =
          mkTemp "_t" (((s.lower_expr lhs).1.lower_expr rhs).1.fresh_ctr + 1)) ∧
    (Lower.new.lower_expr (.binOp .add (.const 1) (.const 2))).1.tv ≠
      (lowerExprRF Lower.new (.binOp .add (.const 1) (.const 2))).1.tv := by
  refine ⟨lower_expr_binOp_shape, ?_⟩
  simp [Lower.lower_expr, lowerExprRF, Lower.mk_var, Lower.add_decl, mkTemp,
    Lower.new, Lower.push]
  decide

end Smol
